import Mathlib

/-!
Verification development for the Spyfall room coordinator
(src/app/page.tsx).  The replicated Yjs maps are modelled as association
lists with Yjs `Map.set`/`Map.delete` semantics (update in place, append
when absent); machine timestamps are `Nat` milliseconds; the host-only
reactive effects are modelled as explicit functions on a `Room` record,
with the wall clock (`Date.now()`) and the local identity (`me.id`)
passed as parameters.  `Math.random()` driven choices are modelled by
passing the drawn indices as parameters.
-/

namespace Spyfall

/-- Game phase, from the `Phase` union type in src/app/page.tsx. -/
inductive Phase where
  | lobby
  | playing
  | voting
  | tieGuess
  | revealed
  | postgame
deriving DecidableEq, Repr

/-- Game mode: `'classic' | 'double'`. -/
inductive GameMode where
  | classic
  | double
deriving DecidableEq, Repr

/-- Round winner: `'civ' | 'spy'`. -/
inductive Winner where
  | civ
  | spy
deriving DecidableEq, Repr

/-- UI language, which selects the system strings written into state. -/
inductive Lang where
  | th
  | en
deriving DecidableEq, Repr

/-- Player record: `{ id, name }`. -/
structure Player where
  id : String
  name : String
deriving DecidableEq, Repr

/-- Vote container value.  Entries written by `api.vote` are objects
`{ target, confirmed }`; a bare string target is the legacy form that the
reader code (`typeof val === 'string'`) still accepts. -/
inductive VoteVal where
  | str (target : String)
  | obj (target : String) (confirmed : Bool)
deriving DecidableEq, Repr

/-- Replicated room state, from the `RoomState` type in src/app/page.tsx. -/
structure RoomState where
  phase : Phase
  hostId : Option String
  gameMode : GameMode
  createdAt : Option Nat
  roundNumber : Nat
  roundStartAt : Option Nat
  timerEnd : Option Nat
  voteWindowEndsAt : Option Nat
  tieGuessEndsAt : Option Nat
  voteAnnouncedRound : Option Nat
  voteWindowSetRound : Option Nat
  location : Option String
  spyId : Option String
  spyIds : Option (List String)
  roles : List (String × String)
  selectedLocations : Option (List String)
  spyChoices : Option (List (String × Option String))
  winner : Option Winner
  winReason : Option String
  closedAt : Option Nat
deriving DecidableEq, Repr

/-- The `DEFAULT_STATE` constant of src/app/page.tsx. -/
def DEFAULT_STATE : RoomState :=
  { phase := .lobby
    hostId := none
    gameMode := .classic
    createdAt := none
    roundNumber := 0
    roundStartAt := none
    timerEnd := none
    voteWindowEndsAt := none
    tieGuessEndsAt := none
    voteAnnouncedRound := none
    voteWindowSetRound := none
    location := none
    spyId := none
    spyIds := none
    roles := []
    selectedLocations := none
    spyChoices := some []
    winner := none
    winReason := none
    closedAt := none }

/-- The inactivity window `INACTIVITY_MS = 5 * 60 * 1000`. -/
def INACTIVITY_MS : Nat := 5 * 60 * 1000

/-! Association-list model of a Yjs `Y.Map`.  `aget` is `map.get`,
`aset` is `map.set` (replaces in place, appends when the key is new) and
`adel` is `map.delete`. -/

/-- Lookup of a key in an association list (`Y.Map.get`). -/
def aget {α : Type} (k : String) : List (String × α) → Option α
  | [] => none
  | (k', v) :: rest => if k' = k then some v else aget k rest

/-- Write of a key in an association list (`Y.Map.set`): replaces the
existing binding in place, appends a new binding otherwise. -/
def aset {α : Type} (k : String) (v : α) : List (String × α) → List (String × α)
  | [] => [(k, v)]
  | (k', v') :: rest => if k' = k then (k, v) :: rest else (k', v') :: aset k v rest

/-- Removal of a key from an association list (`Y.Map.delete`). -/
def adel {α : Type} (k : String) : List (String × α) → List (String × α)
  | [] => []
  | (k', v') :: rest => if k' = k then rest else (k', v') :: adel k rest

/-- The target id carried by a vote entry (`typeof entry === 'string' ?
entry : entry?.target`). -/
def targetOf : VoteVal → String
  | .str t => t
  | .obj t _ => t

/-- Confirmation flag of a vote entry (`typeof entry === 'object' ?
!!entry?.confirmed : false`). -/
def confirmedOf : VoteVal → Bool
  | .str _ => false
  | .obj _ c => c

/-- The `api.vote(voterId, targetId)` operation of src/app/page.tsx. -/
def vote (votes : List (String × VoteVal)) (voterId targetId : String) :
    List (String × VoteVal) :=
  let existing := aget voterId votes
  let existingTarget : Option String := existing.map targetOf
  let existingConfirmed : Bool :=
    match existing with
    | some (.obj _ c) => c
    | _ => false
  if existingConfirmed then votes
  else if existingTarget = some targetId then adel voterId votes
  else aset voterId (VoteVal.obj targetId false) votes

/-- The `api.confirmVote(voterId)` operation of src/app/page.tsx.  A
missing entry returns immediately (`if (!existing) return`); the empty
legacy string is likewise falsy in the source and returns. -/
def confirmVote (votes : List (String × VoteVal)) (voterId : String) :
    List (String × VoteVal) :=
  match aget voterId votes with
  | none => votes
  | some (.str t) =>
      if t = "" then votes else aset voterId (VoteVal.obj t true) votes
  | some (.obj t _) => aset voterId (VoteVal.obj t true) votes

/-- Keys of an association list. -/
def akeys {α : Type} (m : List (String × α)) : List String := m.map (·.1)

/-! Display-name helpers.  JS strings are modelled as their character
lists (`String.data`); `normalizeName` is `trim` plus collapsing of
whitespace runs (equivalently: whitespace-separated words rejoined with
single spaces), `nameKey` lowercases the normalized name, and `baseName`
strips one trailing ` (number)` group, mirroring the helpers at the top
of src/app/page.tsx. -/

/-- Whitespace test used by `trim` and the `\s` regex class. -/
def isWs (c : Char) : Bool := c.isWhitespace

/-- One step of the word splitter, consuming characters from the right:
whitespace closes the current word, any other character extends it. -/
def wordsStep (c : Char) (acc : List Char × List (List Char)) :
    List Char × List (List Char) :=
  if isWs c then
    if acc.1 = [] then ([], acc.2) else ([], acc.1 :: acc.2)
  else (c :: acc.1, acc.2)

/-- Whitespace-separated words of a character list; empty words do not
occur.  Rejoined with single spaces (see `normalizeNameL`) this realizes
`input.trim().replace(/\s+/g, ' ')`. -/
def wordsWs (l : List Char) : List (List Char) :=
  if (l.foldr wordsStep ([], [])).1 = [] then (l.foldr wordsStep ([], [])).2
  else (l.foldr wordsStep ([], [])).1 :: (l.foldr wordsStep ([], [])).2

/-- The `normalizeName` helper of src/app/page.tsx, on character lists:
trim and collapse internal whitespace runs to single spaces. -/
def normalizeNameL (l : List Char) : List Char :=
  List.intercalate [' '] (wordsWs l)

/-- Character-wise lowercasing (`String.prototype.toLowerCase`). -/
def lowerL (l : List Char) : List Char := l.map Char.toLower

/-- The `nameKey` helper of src/app/page.tsx:
`normalizeName(n).toLowerCase()`. -/
def nameKeyL (l : List Char) : List Char := lowerL (normalizeNameL l)

/-- Decimal digit rendering used by the `${i}` template interpolation. -/
def digitChar (d : Nat) : Char :=
  match d with
  | 0 => '0' | 1 => '1' | 2 => '2' | 3 => '3' | 4 => '4'
  | 5 => '5' | 6 => '6' | 7 => '7' | 8 => '8' | _ => '9'

/-- Decimal rendering of a natural number (`${i}` for a JS integer). -/
def natToStrL (n : Nat) : List Char :=
  if n = 0 then ['0'] else ((Nat.digits 10 n).reverse).map digitChar

/-- The candidate name `` `${base} (${i})` `` built by the join loop and
the dedupe effect. -/
def numberedL (base : List Char) (i : Nat) : List Char :=
  base ++ ' ' :: '(' :: (natToStrL i ++ [')'])

/-- The `i`-th attempt of the join loops: the bare base for `i = 1`,
`` `${base} (${i})` `` afterwards. -/
def attemptName (base : List Char) (i : Nat) : List Char :=
  if i = 1 then base else numberedL base i

/-- Desired name of the member at index `idx` of the sorted same-base
group (src/app/page.tsx line 1094): the bare base at index 0,
`` `${base} (${idx + 1})` `` otherwise. -/
def desiredName (base : List Char) (idx : Nat) : List Char :=
  if idx = 0 then base else numberedL base (idx + 1)

/-- The `baseName` helper of src/app/page.tsx:
`normalizeName(n).replace(/\s+\(\d+\)$/, '')`, implemented by parsing the
reversed list. -/
def baseNameL (l : List Char) : List Char :=
  let n := normalizeNameL l
  match n.reverse with
  | [] => n
  | c :: r1 =>
      if c ≠ ')' then n
      else
        let ds := r1.takeWhile Char.isDigit
        let r2 := r1.dropWhile Char.isDigit
        if ds = [] then n
        else
          match r2 with
          | [] => n
          | c2 :: r3 =>
              if c2 ≠ '(' then n
              else
                let ws := r3.takeWhile isWs
                if ws = [] then n else (r3.dropWhile isWs).reverse

/-- String-level `nameKey`. -/
def nameKeyS (s : String) : String := ⟨nameKeyL s.data⟩

/-- Spy assignment of `startGame` (src/app/page.tsx lines 1115-1122).
`i1` and `i2` stand for the two `Math.floor(Math.random() * ids.length)`
draws. -/
def startGameSpyIds (ids : List String) (gameMode : GameMode) (i1 i2 : Nat) :
    List String :=
  if gameMode = .double ∧ 8 ≤ ids.length then
    let j2 := if i2 = i1 then (i1 + 1) % ids.length else i2
    [ids.getD i1 "", ids.getD j2 ""]
  else
    [ids.getD i1 ""]

/-- Replicated room document: the per-room Yjs containers used by the
game logic (the append-only chat log is omitted, none of the game logic
reads it back). -/
structure Room where
  players : List (String × Player)
  state : RoomState
  votes : List (String × VoteVal)
  joinAt : List (String × Nat)
  lastSeen : List (String × Nat)
  activity : List (String × Nat)
  openVoteReq : List (String × Nat)
  nameClaims : List (String × String)
deriving DecidableEq, Repr

/-- The room with every container empty and the state at its defaults. -/
def emptyRoom : Room :=
  { players := [], state := DEFAULT_STATE, votes := [], joinAt := []
    lastSeen := [], activity := [], openVoteReq := [], nameClaims := [] }

/-- The player roster as read by the React layer:
`Array.from(playersY.values())`. -/
def playersList (room : Room) : List Player := room.players.map (·.2)

/-- The derived `roundStartAt = state.roundStartAt ?? 0`. -/
def roundStartOf (s : RoomState) : Nat := s.roundStartAt.getD 0

/-- The derived `eligiblePlayers`: players whose join timestamp is at
most the round start (src/app/page.tsx line 738). -/
def eligiblePlayers (room : Room) : List Player :=
  (playersList room).filter
    (fun p => decide ((aget p.id room.joinAt).getD 0 ≤ roundStartOf room.state))

/-- Ids of the eligible players. -/
def eligibleIds (room : Room) : List String := (eligiblePlayers room).map (·.id)

/-- The derived `confirmedCount`: eligible voters holding a confirmed
vote (src/app/page.tsx line 740). -/
def confirmedCount (room : Room) : Nat :=
  (room.votes.filter
    (fun kv => (eligiblePlayers room).any (fun p => p.id == kv.1) && confirmedOf kv.2)).length

/-- The derived `everyoneConfirmed` flag (src/app/page.tsx line 741). -/
def everyoneConfirmed (room : Room) : Bool :=
  decide (0 < (eligiblePlayers room).length) &&
  decide (confirmedCount room = (eligiblePlayers room).length)

/-- The derived spy list (src/app/page.tsx line 729):
`spyIds` when non-empty, else the singleton `spyId`, else empty. -/
def spiesOf (s : RoomState) : List String :=
  match s.spyIds with
  | some l => if l.length ≠ 0 then l else (match s.spyId with | some x => [x] | none => [])
  | none => match s.spyId with | some x => [x] | none => []

/-- First-occurrence deduplication; models the key set of the JS
`counts` record in insertion order (a key is created by
`counts[targetId] = (counts[targetId] || 0) + 1` at its first
occurrence). -/
def dedupFirst (l : List String) : List String :=
  l.foldl (fun acc x => if x ∈ acc then acc else acc ++ [x]) []

/-- Number of occurrences of `t`, i.e. the tallied `counts[t]`. -/
def countOcc (l : List String) (t : String) : Nat :=
  (l.filter (fun y => y == t)).length

/-- The tally maximum: `values.length ? Math.max(...values) : 0`. -/
def maxCount (l : List String) : Nat :=
  ((dedupFirst l).map (countOcc l)).foldr max 0

/-- The targets achieving the maximum count (`topTargets`). -/
def topTargets (l : List String) : List String :=
  (dedupFirst l).filter (fun t => decide (countOcc l t = maxCount l))

/-- The `isTie` test: at least two top targets and a positive maximum. -/
def isTieOf (l : List String) : Bool :=
  decide (2 ≤ (topTargets l).length) && decide (0 < maxCount l)

/-- Targets counted by the everyone-confirmed tally (src/app/page.tsx
lines 814-822): one occurrence per vote of an eligible voter with a
truthy target and a confirmed entry.  The target itself is not required
to be eligible here. -/
def countedTargetsEveryone (elig : List String) (votes : List (String × VoteVal)) :
    List String :=
  votes.filterMap
    (fun kv =>
      if decide (kv.1 ∈ elig) && decide (targetOf kv.2 ≠ "") && confirmedOf kv.2
      then some (targetOf kv.2) else none)

/-- Targets counted by the vote-window-elapsed tally (src/app/page.tsx
lines 850-858): as above, but additionally requiring the vote's target
to be eligible (`eligibleIds.has(targetId)`). -/
def countedTargetsWindow (elig : List String) (votes : List (String × VoteVal)) :
    List String :=
  votes.filterMap
    (fun kv =>
      if decide (kv.1 ∈ elig) && decide (targetOf kv.2 ≠ "") && confirmedOf kv.2 &&
         decide (targetOf kv.2 ∈ elig)
      then some (targetOf kv.2) else none)

/-- Win reason written when the single top target is a spy. -/
def reasonVotedSpy : Lang → String
  | .th => "โหวตถูกตัวสายลับ"
  | .en => "Voted the spy correctly"

/-- Win reason written when the top target is not a spy (or no vote was
counted). -/
def reasonVotedWrong : Lang → String
  | .th => "โหวตผิดตัว"
  | .en => "Voted the wrong person"

/-- Shared tail of the two tally effects: given the list of counted
targets, either enter the tie-guess sub-phase or reveal the winner. -/
def applyTallyOutcome (room : Room) (lang : Lang) (now : Nat) (counted : List String) :
    Room :=
  let tops := topTargets counted
  if isTieOf counted then
    { room with state := { room.state with
        phase := .tieGuess
        voteWindowEndsAt := none
        tieGuessEndsAt := some (now + 20000)
        timerEnd := some (now + 20000) } }
  else
    let guessedId := tops.head?
    let isSpyHit : Bool :=
      match guessedId with
      | some g => decide (g ∈ spiesOf room.state)
      | none => false
    let winner : Winner := if isSpyHit then .civ else .spy
    let reason := if isSpyHit then reasonVotedSpy lang else reasonVotedWrong lang
    { room with state := { room.state with
        phase := .revealed
        winner := some winner
        winReason := some reason } }

/-- The everyone-confirmed tally effect (src/app/page.tsx lines
805-841), run on the host replica.  The `processedVotesForRoundRef`
once-per-round guard and the chat posts are not modelled. -/
def resolveVotesEveryone (room : Room) (meId : String) (lang : Lang) (now : Nat) :
    Room :=
  if room.state.hostId ≠ some meId then room
  else if room.state.phase ≠ Phase.voting then room
  else if everyoneConfirmed room = false then room
  else applyTallyOutcome room lang now
    (countedTargetsEveryone (eligibleIds room) room.votes)

/-- The 30-second-window-elapsed tally effect (src/app/page.tsx lines
844-889), run on the host replica once `Date.now() >= voteWindowEndsAt`. -/
def resolveVotesWindow (room : Room) (meId : String) (lang : Lang) (now : Nat) :
    Room :=
  if room.state.hostId ≠ some meId then room
  else if room.state.phase ≠ Phase.voting then room
  else
    match room.state.voteWindowEndsAt with
    | none => room
    | some w =>
        if now < w then room
        else applyTallyOutcome room lang now
          (countedTargetsWindow (eligibleIds room) room.votes)

/-- Win reasons of the spy's tie-break guess. -/
def reasonSpyTieGuess (lang : Lang) (correct : Bool) : String :=
  match lang, correct with
  | .th, true => "สายลับเดาถูกหลังผลเสมอ"
  | .th, false => "สายลับเดาผิดหลังผลเสมอ"
  | .en, true => "Spy guessed correctly after tie"
  | .en, false => "Spy guessed wrong after tie"

/-- Win reasons of the spy's guess during voting. -/
def reasonSpyVotingGuess (lang : Lang) (correct : Bool) : String :=
  match lang, correct with
  | .th, true => "สายลับเดาสถานที่ถูก"
  | .th, false => "สายลับเดาผิด"
  | .en, true => "Spy guessed correctly"
  | .en, false => "Spy guessed wrong"

/-- The `handleSpyPickWin(pickName)` handler (src/app/page.tsx lines
892-910): a spy's location guess during `voting` or `tie-guess` decides
the round at once; everyone else, and every other phase, is a no-op. -/
def handleSpyPickWin (room : Room) (meId : String) (lang : Lang) (pickName : String) :
    Room :=
  if decide (meId ∈ spiesOf room.state) = false then room
  else if room.state.phase = Phase.tieGuess then
    let correct := decide (room.state.location = some pickName)
    { room with state := { room.state with
        phase := .revealed
        winner := some (if correct then .spy else .civ)
        winReason := some (reasonSpyTieGuess lang correct) } }
  else if room.state.phase = Phase.voting then
    let correct := decide (room.state.location = some pickName)
    { room with state := { room.state with
        phase := .revealed
        winner := some (if correct then .spy else .civ)
        winReason := some (reasonSpyVotingGuess lang correct) } }
  else room

/-- The `newRound` host action (src/app/page.tsx lines 1151-1163):
write every `DEFAULT_STATE` field except `hostId`, `gameMode`,
`createdAt` and `roundNumber`, then clear the vote and open-vote-request
containers. -/
def newRound (room : Room) (meId : String) : Room :=
  if room.state.hostId ≠ some meId then room
  else
    { room with
      state := { DEFAULT_STATE with
        hostId := room.state.hostId
        gameMode := room.state.gameMode
        createdAt := room.state.createdAt
        roundNumber := room.state.roundNumber }
      votes := []
      openVoteReq := [] }

/-- Room-level `api.confirmVote`: only the vote container is written. -/
def confirmVoteRoom (room : Room) (voterId : String) : Room :=
  { room with votes := confirmVote room.votes voterId }

/-- Room-level `api.vote`: only the vote container is written. -/
def voteRoom (room : Room) (voterId targetId : String) : Room :=
  { room with votes := vote room.votes voterId targetId }

/-- The synchronous part of `api.removePlayer(id)` (src/app/page.tsx
lines 420-429): release the player's name claim, delete the player from
every per-player container, and clear `hostId` if the host left. -/
def removePlayerBase (room : Room) (id : String) : Room :=
  let claims' :=
    match aget id room.players with
    | some cur =>
        let k := nameKeyS cur.name
        if aget k room.nameClaims = some id then adel k room.nameClaims
        else room.nameClaims
    | none => room.nameClaims
  let hostId' := if room.state.hostId = some id then none else room.state.hostId
  { room with
    nameClaims := claims'
    players := adel id room.players
    joinAt := adel id room.joinAt
    lastSeen := adel id room.lastSeen
    votes := adel id room.votes
    activity := adel id room.activity
    openVoteReq := adel id room.openVoteReq
    state := { room.state with hostId := hostId' } }

/-- Sequential write of every `DEFAULT_STATE` field in the
`Object.entries(DEFAULT_STATE)` iteration order; note that the final
write puts `closedAt` back to `null`. -/
def applyDefaultStatePairs (s : RoomState) : RoomState :=
  { s with
    phase := DEFAULT_STATE.phase
    hostId := DEFAULT_STATE.hostId
    gameMode := DEFAULT_STATE.gameMode
    createdAt := DEFAULT_STATE.createdAt
    roundNumber := DEFAULT_STATE.roundNumber
    roundStartAt := DEFAULT_STATE.roundStartAt
    timerEnd := DEFAULT_STATE.timerEnd
    voteWindowEndsAt := DEFAULT_STATE.voteWindowEndsAt
    tieGuessEndsAt := DEFAULT_STATE.tieGuessEndsAt
    voteAnnouncedRound := DEFAULT_STATE.voteAnnouncedRound
    voteWindowSetRound := DEFAULT_STATE.voteWindowSetRound
    location := DEFAULT_STATE.location
    spyId := DEFAULT_STATE.spyId
    spyIds := DEFAULT_STATE.spyIds
    roles := DEFAULT_STATE.roles
    selectedLocations := DEFAULT_STATE.selectedLocations
    spyChoices := DEFAULT_STATE.spyChoices
    winner := DEFAULT_STATE.winner
    winReason := DEFAULT_STATE.winReason
    closedAt := DEFAULT_STATE.closedAt }

/-- The queued microtask of `api.removePlayer` (src/app/page.tsx lines
431-445): once the roster is empty, mark `closedAt`, clear every
container, and then write all `DEFAULT_STATE` pairs. -/
def removePlayerMicro (room : Room) (now : Nat) : Room :=
  if room.players.length = 0 then
    { room with
      state := applyDefaultStatePairs { room.state with closedAt := some now }
      votes := [], joinAt := [], lastSeen := [], activity := []
      openVoteReq := [], nameClaims := [] }
  else room

/-- A complete `api.removePlayer(id)` call: the synchronous removal
followed by its microtask. -/
def removePlayer (room : Room) (id : String) (now : Nat) : Room :=
  removePlayerMicro (removePlayerBase room id) now

/-- The idle-close effect (src/app/page.tsx lines 927-939): when the
latest of all activity timestamps, `roundStartAt` and `createdAt` is at
least `INACTIVITY_MS` in the past and the room is not already closed,
write the partial close state and remove every player with an activity
record.  The effect body is synchronous, so all removal microtasks run
after all the synchronous removals. -/
def idleClose (room : Room) (now : Nat) : Room :=
  let activityVals := room.activity.map (·.2)
  let latestActivity :=
    max (max (activityVals.foldr max 0) (room.state.roundStartAt.getD 0))
      (room.state.createdAt.getD 0)
  if latestActivity = 0 then room
  else if INACTIVITY_MS ≤ now - latestActivity ∧ room.state.closedAt.getD 0 = 0 then
    let r1 := { room with state := { room.state with
        phase := .lobby
        closedAt := some now
        winner := none
        winReason := none
        selectedLocations := none
        spyChoices := some []
        voteAnnouncedRound := none
        voteWindowSetRound := none } }
    let ids := room.activity.map (·.1)
    let r2 := ids.foldl removePlayerBase r1
    ids.foldl (fun r _ => removePlayerMicro r now) r2
  else room

/-- The bounded search of the join loops (src/app/page.tsx lines
1041-1045 and 1051-1057): walk `base`, `base (2)`, `base (3)`, … until
the key is unclaimed or already owned by the joining identity.  The
source loop is unbounded; here the caller passes fuel
`claims.length + 1`, which suffices because the attempted keys are
pairwise distinct. -/
def findFreshName (claims : List (String × String)) (id : String) (base : List Char) :
    Nat → Nat → Option (List Char)
  | 0, _ => none
  | fuel + 1, i =>
      let attempt := attemptName base i
      match aget (⟨nameKeyL attempt⟩ : String) claims with
      | none => some attempt
      | some owner =>
          if owner = id then some attempt
          else findFreshName claims id base fuel (i + 1)

/-- The `joinNow` transaction (src/app/page.tsx lines 1024-1071),
after the transport wait: claim a free numbered variant of the requested
name, write the player record and the join timestamp.  The branch on an
already-present player record (lines 1036-1049) is included. -/
def joinNow (room : Room) (id : String) (rawName : String) (now : Nat) : Room :=
  let base : List Char :=
    let b := normalizeNameL rawName.data
    if b = [] then "Player".data else b
  match aget id room.players with
  | some self =>
      let selfKey : String := nameKeyS self.name
      let claims0 :=
        if aget selfKey room.nameClaims = some id ∧ (⟨nameKeyL base⟩ : String) ≠ selfKey
        then adel selfKey room.nameClaims else room.nameClaims
      match findFreshName claims0 id base (claims0.length + 1) 1 with
      | none => room
      | some finalName =>
          let claims' := aset (⟨nameKeyL finalName⟩ : String) id claims0
          let players' :=
            if self.name = (⟨finalName⟩ : String) then room.players
            else aset id ⟨id, ⟨finalName⟩⟩ room.players
          let joinAt' :=
            if (aget id room.joinAt).getD 0 = 0 then aset id now room.joinAt
            else room.joinAt
          { room with nameClaims := claims', players := players', joinAt := joinAt' }
  | none =>
      match findFreshName room.nameClaims id base (room.nameClaims.length + 1) 1 with
      | none => room
      | some finalName =>
          let key : String := ⟨nameKeyL finalName⟩
          let claims' :=
            match aget key room.nameClaims with
            | none => aset key id room.nameClaims
            | some _ => room.nameClaims
          { room with
            nameClaims := claims'
            players := aset id ⟨id, ⟨finalName⟩⟩ room.players
            joinAt := aset id now room.joinAt }

/-- The sort comparator of the dedupe effect (src/app/page.tsx line
1092): join timestamp first, identity as tie-break. -/
def joinOrderLE (joinAt : List (String × Nat)) (a b : Player) : Bool :=
  let ta := (aget a.id joinAt).getD 0
  let tb := (aget b.id joinAt).getD 0
  decide (ta < tb) || (decide (ta = tb) && decide (a.id ≤ b.id))

/-- Index of the first element satisfying the predicate
(`Array.prototype.findIndex`; `none` for the source's `-1`). -/
def findIdxA (pred : Player → Bool) : List Player → Option Nat
  | [] => none
  | p :: rest => if pred p then some 0 else (findIdxA pred rest).map (· + 1)

/-- String-level first-index search. -/
def findIdxS (x : String) : List String → Option Nat
  | [] => none
  | y :: rest => if y = x then some 0 else (findIdxS x rest).map (· + 1)

/-- Ordered insertion for `sortBy`. -/
def insertBy {α : Type} (le : α → α → Bool) (x : α) : List α → List α
  | [] => [x]
  | y :: ys => if le x y then x :: y :: ys else y :: insertBy le x ys

/-- Insertion sort; the comparator used with it is a total order on the
sorted group (distinct ids), so it computes the same result as the
source's `Array.prototype.sort`. -/
def sortBy {α : Type} (le : α → α → Bool) : List α → List α
  | [] => []
  | x :: xs => insertBy le x (sortBy le xs)

/-- The self-dedupe effect (src/app/page.tsx lines 1083-1102), run by
the client `meId`: within the group sharing this player's base name,
rename oneself to the name derived from the position in the
(join-timestamp, id) order, moving the name claim accordingly. -/
def dedupeStep (room : Room) (meId : String) : Room :=
  match aget meId room.players with
  | none => room
  | some self =>
      let base := baseNameL self.name.data
      let group := (playersList room).filter
        (fun p => lowerL (baseNameL p.name.data) == lowerL base)
      if group.length ≤ 1 then room
      else
        let sorted := sortBy (joinOrderLE room.joinAt) group
        match findIdxA (fun p => p.id == meId) sorted with
        | none => room
        | some myIndex =>
            let desired := desiredName base myIndex
            if self.name = (⟨desired⟩ : String) then room
            else
              let oldKey : String := nameKeyS self.name
              let claims0 :=
                if aget oldKey room.nameClaims = some meId
                then adel oldKey room.nameClaims else room.nameClaims
              let claims' := aset (⟨nameKeyL desired⟩ : String) meId claims0
              { room with
                nameClaims := claims'
                players := aset meId ⟨meId, ⟨desired⟩⟩ room.players }

/-- String-level `normalizeName`. -/
def normalizeName (s : String) : String := ⟨normalizeNameL s.data⟩

/-- The key claimed by the `i`-th join attempt. -/
def attemptKey (base : List Char) (i : Nat) : String := ⟨nameKeyL (attemptName base i)⟩

/-- Fold of `joinNow` over a list of `(id, timestamp)` joins that all
request the same display name. -/
def joinAll (rawName : String) (room : Room) (joins : List (String × Nat)) : Room :=
  joins.foldl (fun r j => joinNow r j.1 rawName j.2) room

/-- Fold of the self-dedupe effect over a list of client identities
(each client re-deriving its own name on a roster change). -/
def dedupeAll (room : Room) (ids : List String) : Room :=
  ids.foldl dedupeStep room

/-- Expected player container after a sequence of fresh joins: the
joiner at offset `j` holds the `(j+1)`-th attempt name. -/
def playersFrom (base : List Char) (off : Nat) :
    List (String × Nat) → List (String × Player)
  | [] => []
  | p :: rest => (p.1, ⟨p.1, ⟨attemptName base (off + 1)⟩⟩) :: playersFrom base (off + 1) rest

/-- Expected name-claim container after a sequence of fresh joins. -/
def claimsFrom (base : List Char) (off : Nat) :
    List (String × Nat) → List (String × String)
  | [] => []
  | p :: rest => (attemptKey base (off + 1), p.1) :: claimsFrom base (off + 1) rest

/-- Expected room after a sequence of fresh joins from the empty room. -/
def roomAfterJoins (base : List Char) (prev : List (String × Nat)) : Room :=
  { emptyRoom with
    players := playersFrom base 0 prev
    joinAt := prev
    nameClaims := claimsFrom base 0 prev }

/-- Player container in which the player joined at each timestamp entry
carries the name assigned by `f`. -/
def playersWith (f : String → List Char) : List (String × Nat) → List (String × Player)
  | [] => []
  | p :: rest => (p.1, ⟨p.1, ⟨f p.1⟩⟩) :: playersWith f rest

/-- The comparator of the dedupe sort, acting on bare identities. -/
def idOrderLE (joinAt : List (String × Nat)) (a b : String) : Bool :=
  let ta := (aget a joinAt).getD 0
  let tb := (aget b joinAt).getD 0
  decide (ta < tb) || (decide (ta = tb) && decide (a ≤ b))



/-- Initial naming assignment after a fresh same-name join sequence: the
joiner at position `j` of the sequence holds the `(j+1)`-th attempt
name. -/
def joinNameOf (base : List Char) (ids : List String) (id : String) : List Char :=
  match findIdxS id ids with
  | some j => attemptName base (j + 1)
  | none => base

/-- The room after a same-name join sequence, once every member has
re-derived its own display name (one dedupe pass per client). -/
def roomAfterDedupe (base : List Char) (joins : List (String × Nat)) : Room :=
  dedupeAll (joinAll ⟨base⟩ emptyRoom joins) (joins.map (·.1))

/-- The roster of the re-derived room in the dedupe effect's
join-timestamp-then-id order. -/
def sortedRoster (base : List Char) (joins : List (String × Nat)) : List Player :=
  sortBy (joinOrderLE (roomAfterDedupe base joins).joinAt)
    (playersList (roomAfterDedupe base joins))

/-! Concrete rooms used by the claim-level witnesses and evaluations. -/

/-- A voting-phase room with three eligible voters `v1 v2 v3` (host and
sole spy `v1`), one late joiner `w`, and confirmed votes
`v1 → w`, `v2 → w`, `v3 → v1`. -/
def roomIneligibleTarget : Room :=
  { players := [("v1", ⟨"v1", "A"⟩), ("v2", ⟨"v2", "B"⟩), ("v3", ⟨"v3", "C"⟩),
                ("w", ⟨"w", "W"⟩)]
    state := { DEFAULT_STATE with
      phase := .voting
      hostId := some "v1"
      roundStartAt := some 1000
      location := some "Beach"
      spyId := some "v1"
      spyIds := some ["v1"]
      voteWindowEndsAt := some 5000 }
    votes := [("v1", VoteVal.obj "w" true), ("v2", VoteVal.obj "w" true),
              ("v3", VoteVal.obj "v1" true)]
    joinAt := [("v1", 10), ("v2", 20), ("v3", 30), ("w", 2000)]
    lastSeen := [], activity := [], openVoteReq := [], nameClaims := [] }

/-- A voting-phase room with four eligible voters whose confirmed votes
split two against two (`v1,v3 → v2` and `v2,v4 → v1`). -/
def roomTiedVotes : Room :=
  { players := [("v1", ⟨"v1", "A"⟩), ("v2", ⟨"v2", "B"⟩), ("v3", ⟨"v3", "C"⟩),
                ("v4", ⟨"v4", "D"⟩)]
    state := { DEFAULT_STATE with
      phase := .voting
      hostId := some "v1"
      roundStartAt := some 1000
      location := some "Beach"
      spyId := some "v1"
      spyIds := some ["v1"]
      voteWindowEndsAt := some 5000 }
    votes := [("v1", VoteVal.obj "v2" true), ("v2", VoteVal.obj "v1" true),
              ("v3", VoteVal.obj "v2" true), ("v4", VoteVal.obj "v1" true)]
    joinAt := [("v1", 10), ("v2", 20), ("v3", 30), ("v4", 40)]
    lastSeen := [], activity := [], openVoteReq := [], nameClaims := [] }

/-- A voting-phase room with three eligible voters all confirmed on the
spy `v1`. -/
def roomSpyVoted : Room :=
  { players := [("v1", ⟨"v1", "A"⟩), ("v2", ⟨"v2", "B"⟩), ("v3", ⟨"v3", "C"⟩)]
    state := { DEFAULT_STATE with
      phase := .voting
      hostId := some "v1"
      roundStartAt := some 1000
      location := some "Beach"
      spyId := some "v1"
      spyIds := some ["v1"]
      voteWindowEndsAt := some 5000 }
    votes := [("v1", VoteVal.obj "v2" true), ("v2", VoteVal.obj "v1" true),
              ("v3", VoteVal.obj "v1" true)]
    joinAt := [("v1", 10), ("v2", 20), ("v3", 30)]
    lastSeen := [], activity := [], openVoteReq := [], nameClaims := [] }

/-- A mid-round room with two players, both holding stale activity
timestamps. -/
def roomIdleStale : Room :=
  { players := [("p1", ⟨"p1", "A"⟩), ("p2", ⟨"p2", "B"⟩)]
    state := { DEFAULT_STATE with
      phase := .playing
      hostId := some "p1"
      roundStartAt := some 1000
      createdAt := some 500
      location := some "Beach"
      roundNumber := 3 }
    votes := [("p1", VoteVal.obj "p2" true)]
    joinAt := [("p1", 10), ("p2", 20)]
    lastSeen := [("p1", 999)]
    activity := [("p1", 1000), ("p2", 900)]
    openVoteReq := [("p1", 1)]
    nameClaims := [("a", "p1"), ("b", "p2")] }

/-! Helper lemmas about the association-list operations. -/

/-- Rewriting a key with the value it already holds is a no-op. -/
theorem aset_of_aget_eq {α : Type} (k : String) (v : α) :
    ∀ m : List (String × α), aget k m = some v → aset k v m = m
  | [], h => by simp [aget] at h
  | (k', v') :: rest, h => by
      by_cases hk : k' = k
      · subst hk
        have h' : v' = v := by simpa [aget] using h
        subst h'
        simp [aset]
      · simp only [aget, if_neg hk] at h
        simp [aset, hk, aset_of_aget_eq k v rest h]

/-- C6: the vote toggle semantics of `api.vote` and the immutability of
confirmed entries: with no recorded vote, an unconfirmed vote for the
target is stored; an unconfirmed vote on the same target is deleted; an
unconfirmed vote on a different target is overwritten by an unconfirmed
vote for the new target; and a confirmed entry is left completely
unchanged both by `api.vote` and by `api.confirmVote`. -/
theorem vote_toggle_semantics (votes : List (String × VoteVal)) (v t : String) :
    (aget v votes = none →
        vote votes v t = aset v (VoteVal.obj t false) votes) ∧
    (∀ e, aget v votes = some e → confirmedOf e = false → targetOf e = t →
        vote votes v t = adel v votes) ∧
    (∀ e, aget v votes = some e → confirmedOf e = false → targetOf e ≠ t →
        vote votes v t = aset v (VoteVal.obj t false) votes) ∧
    (∀ e, aget v votes = some e → confirmedOf e = true →
        vote votes v t = votes ∧ confirmVote votes v = votes) := by
  refine ⟨?_, ?_, ?_, ?_⟩
  · intro h
    simp [vote, h]
  · intro e he hc ht
    cases e with
    | str s =>
        simp only [targetOf] at ht
        subst ht
        simp [vote, he, targetOf]
    | obj s c =>
        simp only [confirmedOf] at hc
        simp only [targetOf] at ht
        subst hc; subst ht
        simp [vote, he, targetOf]
  · intro e he hc ht
    cases e with
    | str s =>
        simp only [targetOf] at ht
        simp [vote, he, targetOf, ht]
    | obj s c =>
        simp only [confirmedOf] at hc
        simp only [targetOf] at ht
        subst hc
        simp [vote, he, targetOf, ht]
  · intro e he hc
    cases e with
    | str s => simp [confirmedOf] at hc
    | obj s c =>
        simp only [confirmedOf] at hc
        subst hc
        constructor
        · simp [vote, he]
        · simp only [confirmVote, he]
          exact aset_of_aget_eq v _ votes he

/-- Closed instance of `vote_toggle_semantics` on concrete vote maps. -/
theorem vote_toggle_semantics_witness :
    vote [] "v" "t" = [("v", VoteVal.obj "t" false)] ∧
    vote [("v", VoteVal.obj "t" false)] "v" "t" = [] ∧
    vote [("v", VoteVal.obj "t" false)] "v" "u" = [("v", VoteVal.obj "u" false)] ∧
    (vote [("v", VoteVal.obj "t" true)] "v" "u" = [("v", VoteVal.obj "t" true)] ∧
     confirmVote [("v", VoteVal.obj "t" true)] "v" = [("v", VoteVal.obj "t" true)]) := by
  refine ⟨?_, ?_, ?_, ?_⟩
  · have h := (vote_toggle_semantics [] "v" "t").1 rfl
    simpa [aset] using h
  · have h := (vote_toggle_semantics [("v", VoteVal.obj "t" false)] "v" "t").2.1
      (VoteVal.obj "t" false) rfl rfl rfl
    simpa [adel] using h
  · have h := (vote_toggle_semantics [("v", VoteVal.obj "t" false)] "v" "u").2.2.1
      (VoteVal.obj "t" false) rfl rfl (by decide)
    simpa [aset] using h
  · exact (vote_toggle_semantics [("v", VoteVal.obj "t" true)] "v" "u").2.2.2
      (VoteVal.obj "t" true) rfl rfl

/-- C10: confirming a vote for a voter with no recorded entry leaves the
room (vote container included) completely unchanged. -/
theorem confirmVote_no_entry (room : Room) (v : String)
    (h : aget v room.votes = none) : confirmVoteRoom room v = room := by
  simp [confirmVoteRoom, confirmVote, h]

/-- Closed instance of `confirmVote_no_entry` on the empty room. -/
theorem confirmVote_no_entry_witness : confirmVoteRoom emptyRoom "v" = emptyRoom :=
  confirmVote_no_entry emptyRoom "v" rfl

/-- C5: `startGame` assigns exactly two distinct spies from the roster
when the mode is double and at least eight players are present, and
exactly one spy otherwise. -/
theorem startGame_spy_assignment (ids : List String) (mode : GameMode) (i1 i2 : Nat)
    (h1 : i1 < ids.length) (h2 : i2 < ids.length) (hnd : ids.Nodup) :
    ((mode = GameMode.double ∧ 8 ≤ ids.length) →
        (startGameSpyIds ids mode i1 i2).length = 2 ∧
        (startGameSpyIds ids mode i1 i2).Nodup ∧
        ∀ s ∈ startGameSpyIds ids mode i1 i2, s ∈ ids) ∧
    (¬(mode = GameMode.double ∧ 8 ≤ ids.length) →
        (startGameSpyIds ids mode i1 i2).length = 1 ∧
        ∀ s ∈ startGameSpyIds ids mode i1 i2, s ∈ ids) := by
  have hlen : 0 < ids.length := Nat.lt_of_lt_of_le (Nat.zero_lt_succ 0) (Nat.one_le_iff_ne_zero.mpr (by omega))
  constructor
  · intro h
    have h8 : 8 ≤ ids.length := h.2
    simp only [startGameSpyIds, if_pos h]
    set j2 := if i2 = i1 then (i1 + 1) % ids.length else i2 with hj2
    have hj2lt : j2 < ids.length := by
      rw [hj2]
      by_cases he : i2 = i1
      · simp only [if_pos he]
        exact Nat.mod_lt _ (by omega)
      · simpa [he] using h2
    have hne : i1 ≠ j2 := by
      rw [hj2]
      by_cases he : i2 = i1
      · simp only [if_pos he]
        intro heq
        rcases Nat.lt_or_ge (i1 + 1) ids.length with hlt | hge
        · rw [Nat.mod_eq_of_lt hlt] at heq
          omega
        · have hsucc : i1 + 1 = ids.length := by omega
          rw [hsucc, Nat.mod_self] at heq
          omega
      · simp only [if_neg he]
        exact fun heq => he heq.symm
    have hg1 : ids.getD i1 "" = ids[i1] := List.getD_eq_getElem ids "" h1
    have hg2 : ids.getD j2 "" = ids[j2] := List.getD_eq_getElem ids "" hj2lt
    have hdiff : ids.getD i1 "" ≠ ids.getD j2 "" := by
      rw [hg1, hg2]
      intro heq
      have := (List.Nodup.get_inj_iff hnd (i := ⟨i1, h1⟩) (j := ⟨j2, hj2lt⟩)).mp
      simp only [List.get_eq_getElem] at this
      exact hne (by simpa using this heq)
    refine ⟨rfl, List.nodup_cons.mpr ⟨by simpa only [List.mem_singleton] using hdiff,
      List.nodup_singleton _⟩, ?_⟩
    intro s hs
    simp only [List.mem_cons, List.not_mem_nil, or_false] at hs
    rcases hs with hs | hs
    · rw [hs, hg1]; exact List.getElem_mem _
    · rw [hs, hg2]; exact List.getElem_mem _
  · intro h
    simp only [startGameSpyIds, if_neg h]
    refine ⟨rfl, ?_⟩
    intro s hs
    simp only [List.mem_cons, List.not_mem_nil, or_false] at hs
    rw [hs, List.getD_eq_getElem ids "" h1]
    exact List.getElem_mem _

/-- Closed instance of `startGame_spy_assignment` for an eight-player
double round (colliding draws) and a classic round. -/
theorem startGame_spy_assignment_witness :
    (startGameSpyIds ["a", "b", "c", "d", "e", "f", "g", "h"] .double 3 3).length = 2 ∧
    (startGameSpyIds ["a", "b", "c", "d", "e", "f", "g", "h"] .double 3 3).Nodup ∧
    (startGameSpyIds ["a", "b", "c", "d", "e", "f", "g", "h"] .classic 2 5).length = 1 := by
  refine ⟨?_, ?_, ?_⟩
  · exact ((startGame_spy_assignment ["a", "b", "c", "d", "e", "f", "g", "h"] .double 3 3
      (by decide) (by decide) (by decide)).1 (by decide)).1
  · exact ((startGame_spy_assignment ["a", "b", "c", "d", "e", "f", "g", "h"] .double 3 3
      (by decide) (by decide) (by decide)).1 (by decide)).2.1
  · exact ((startGame_spy_assignment ["a", "b", "c", "d", "e", "f", "g", "h"] .classic 2 5
      (by decide) (by decide) (by decide)).2 (by decide)).1

/-- C2: a spy's location guess during `voting` or `tie-guess` reveals
the round at once, with the spy winning exactly when the guess equals
the round's location string; a guess by a non-spy, or in any other
phase, changes nothing. -/
theorem spy_guess_decides_round (room : Room) (meId : String) (lang : Lang)
    (pick : String) :
    (∀ loc, meId ∈ spiesOf room.state →
        (room.state.phase = Phase.voting ∨ room.state.phase = Phase.tieGuess) →
        room.state.location = some loc →
        (handleSpyPickWin room meId lang pick).state.winner =
          some (if pick = loc then Winner.spy else Winner.civ) ∧
        (handleSpyPickWin room meId lang pick).state.phase = Phase.revealed) ∧
    (meId ∉ spiesOf room.state → handleSpyPickWin room meId lang pick = room) ∧
    (room.state.phase ≠ Phase.voting → room.state.phase ≠ Phase.tieGuess →
        handleSpyPickWin room meId lang pick = room) := by
  refine ⟨?_, ?_, ?_⟩
  · intro loc hspy hph hloc
    rcases hph with hph | hph
    · by_cases hpl : pick = loc
      · subst hpl
        simp [handleSpyPickWin, hspy, hph, hloc]
      · simp [handleSpyPickWin, hspy, hph, hloc, hpl, Ne.symm hpl]
    · by_cases hpl : pick = loc
      · subst hpl
        simp [handleSpyPickWin, hspy, hph, hloc]
      · simp [handleSpyPickWin, hspy, hph, hloc, hpl, Ne.symm hpl]
  · intro hspy
    simp [handleSpyPickWin, hspy]
  · intro hv ht
    by_cases hspy : meId ∈ spiesOf room.state
    · simp [handleSpyPickWin, hspy, hv, ht]
    · simp [handleSpyPickWin, hspy]

/-- Closed instance of `spy_guess_decides_round` on the tied room:
correct guess wins for the spy, the no-op branches leave the room
unchanged. -/
theorem spy_guess_decides_round_witness :
    ((handleSpyPickWin roomTiedVotes "v1" Lang.en "Beach").state.winner =
        some Winner.spy ∧
     (handleSpyPickWin roomTiedVotes "v1" Lang.en "Beach").state.phase =
        Phase.revealed) ∧
    handleSpyPickWin roomTiedVotes "v2" Lang.en "Beach" = roomTiedVotes := by
  constructor
  · have h := (spy_guess_decides_round roomTiedVotes "v1" Lang.en "Beach").1 "Beach"
      (by decide) (Or.inl rfl) rfl
    simpa using h
  · exact (spy_guess_decides_round roomTiedVotes "v2" Lang.en "Beach").2.1 (by decide)

/-- C9: `newRound` puts every round-scoped state field back at its
default while preserving `hostId`, `gameMode` and the round number, and
clears the vote and open-vote-request containers (the other containers
are untouched). -/
theorem newRound_round_reset (room : Room) (meId : String)
    (h : room.state.hostId = some meId) :
    (newRound room meId).state.phase = Phase.lobby ∧
    (newRound room meId).state.roundStartAt = none ∧
    (newRound room meId).state.timerEnd = none ∧
    (newRound room meId).state.voteWindowEndsAt = none ∧
    (newRound room meId).state.tieGuessEndsAt = none ∧
    (newRound room meId).state.voteAnnouncedRound = none ∧
    (newRound room meId).state.voteWindowSetRound = none ∧
    (newRound room meId).state.location = none ∧
    (newRound room meId).state.spyId = none ∧
    (newRound room meId).state.spyIds = none ∧
    (newRound room meId).state.roles = [] ∧
    (newRound room meId).state.selectedLocations = none ∧
    (newRound room meId).state.spyChoices = some [] ∧
    (newRound room meId).state.winner = none ∧
    (newRound room meId).state.winReason = none ∧
    (newRound room meId).state.hostId = room.state.hostId ∧
    (newRound room meId).state.gameMode = room.state.gameMode ∧
    (newRound room meId).state.roundNumber = room.state.roundNumber ∧
    (newRound room meId).votes = [] ∧
    (newRound room meId).openVoteReq = [] ∧
    (newRound room meId).players = room.players ∧
    (newRound room meId).joinAt = room.joinAt := by
  simp [newRound, h, DEFAULT_STATE]

/-- Closed instance of `newRound_round_reset` on the spy-voted room. -/
theorem newRound_round_reset_witness :
    (newRound roomSpyVoted "v1").state.phase = Phase.lobby ∧
    (newRound roomSpyVoted "v1").state.hostId = some "v1" ∧
    (newRound roomSpyVoted "v1").votes = [] := by
  have h := newRound_round_reset roomSpyVoted "v1" rfl
  refine ⟨h.1, ?_, h.2.2.2.2.2.2.2.2.2.2.2.2.2.2.2.2.2.2.1⟩
  rw [h.2.2.2.2.2.2.2.2.2.2.2.2.2.2.2.1]
  rfl

/-- C3: when either tally trigger resolves the voting phase and at
least two distinct targets share a positive maximum count, the phase
moves to `tie-guess` (not `revealed`) and `tieGuessEndsAt` is set to
now plus twenty seconds. -/
theorem voting_tie_transition (room : Room) (meId : String) (lang : Lang) (now : Nat)
    (hhost : room.state.hostId = some meId) (hph : room.state.phase = Phase.voting) :
    (everyoneConfirmed room = true →
      2 ≤ (topTargets (countedTargetsEveryone (eligibleIds room) room.votes)).length →
      0 < maxCount (countedTargetsEveryone (eligibleIds room) room.votes) →
      (resolveVotesEveryone room meId lang now).state.phase = Phase.tieGuess ∧
      (resolveVotesEveryone room meId lang now).state.tieGuessEndsAt =
        some (now + 20000)) ∧
    (∀ w, room.state.voteWindowEndsAt = some w → w ≤ now →
      2 ≤ (topTargets (countedTargetsWindow (eligibleIds room) room.votes)).length →
      0 < maxCount (countedTargetsWindow (eligibleIds room) room.votes) →
      (resolveVotesWindow room meId lang now).state.phase = Phase.tieGuess ∧
      (resolveVotesWindow room meId lang now).state.tieGuessEndsAt =
        some (now + 20000)) := by
  constructor
  · intro hec h2 h0
    have htie : isTieOf (countedTargetsEveryone (eligibleIds room) room.votes) = true := by
      simp [isTieOf, h2, h0]
    simp [resolveVotesEveryone, hhost, hph, hec, applyTallyOutcome, htie]
  · intro w hw hnow h2 h0
    have htie : isTieOf (countedTargetsWindow (eligibleIds room) room.votes) = true := by
      simp [isTieOf, h2, h0]
    simp [resolveVotesWindow, hhost, hph, hw, Nat.not_lt.mpr hnow, applyTallyOutcome, htie]

/-- Closed instance of `voting_tie_transition` on the 2-2 split room,
through both triggers. -/
theorem voting_tie_transition_witness :
    ((resolveVotesEveryone roomTiedVotes "v1" Lang.en 6000).state.phase =
        Phase.tieGuess ∧
     (resolveVotesEveryone roomTiedVotes "v1" Lang.en 6000).state.tieGuessEndsAt =
        some 26000) ∧
    ((resolveVotesWindow roomTiedVotes "v1" Lang.en 6000).state.phase =
        Phase.tieGuess ∧
     (resolveVotesWindow roomTiedVotes "v1" Lang.en 6000).state.tieGuessEndsAt =
        some 26000) := by
  have h := voting_tie_transition roomTiedVotes "v1" Lang.en 6000 rfl rfl
  exact ⟨h.1 (by decide) (by decide) (by decide),
    h.2 5000 rfl (by decide) (by decide) (by decide)⟩

/-- C4: when either tally trigger resolves the voting phase without a
tie, the round is revealed with a non-null reason, the civilians win
exactly when the single top target is a spy, and the spy wins otherwise
(in particular when no vote was counted at all). -/
theorem voting_no_tie_outcome (room : Room) (meId : String) (lang : Lang) (now : Nat)
    (hhost : room.state.hostId = some meId) (hph : room.state.phase = Phase.voting) :
    (everyoneConfirmed room = true →
      isTieOf (countedTargetsEveryone (eligibleIds room) room.votes) = false →
      (resolveVotesEveryone room meId lang now).state.phase = Phase.revealed ∧
      (resolveVotesEveryone room meId lang now).state.winReason ≠ none ∧
      (resolveVotesEveryone room meId lang now).state.winner =
        some (match (topTargets (countedTargetsEveryone (eligibleIds room) room.votes)).head? with
          | some g => if g ∈ spiesOf room.state then Winner.civ else Winner.spy
          | none => Winner.spy)) ∧
    (∀ w, room.state.voteWindowEndsAt = some w → w ≤ now →
      isTieOf (countedTargetsWindow (eligibleIds room) room.votes) = false →
      (resolveVotesWindow room meId lang now).state.phase = Phase.revealed ∧
      (resolveVotesWindow room meId lang now).state.winReason ≠ none ∧
      (resolveVotesWindow room meId lang now).state.winner =
        some (match (topTargets (countedTargetsWindow (eligibleIds room) room.votes)).head? with
          | some g => if g ∈ spiesOf room.state then Winner.civ else Winner.spy
          | none => Winner.spy)) := by
  constructor
  · intro hec htie
    cases hh : (topTargets (countedTargetsEveryone (eligibleIds room) room.votes)).head? with
    | none =>
        simp [resolveVotesEveryone, hhost, hph, hec, applyTallyOutcome, htie, hh]
    | some g =>
        by_cases hg : g ∈ spiesOf room.state <;>
          simp [resolveVotesEveryone, hhost, hph, hec, applyTallyOutcome, htie, hh, hg]
  · intro w hw hnow htie
    cases hh : (topTargets (countedTargetsWindow (eligibleIds room) room.votes)).head? with
    | none =>
        simp [resolveVotesWindow, hhost, hph, hw, Nat.not_lt.mpr hnow,
          applyTallyOutcome, htie, hh]
    | some g =>
        by_cases hg : g ∈ spiesOf room.state <;>
          simp [resolveVotesWindow, hhost, hph, hw, Nat.not_lt.mpr hnow,
            applyTallyOutcome, htie, hh, hg]

/-- Closed instance of `voting_no_tie_outcome` on the room whose three
voters confirmed a majority on the spy, through both triggers. -/
theorem voting_no_tie_outcome_witness :
    ((resolveVotesEveryone roomSpyVoted "v1" Lang.en 6000).state.phase =
        Phase.revealed ∧
     (resolveVotesEveryone roomSpyVoted "v1" Lang.en 6000).state.winner =
        some Winner.civ) ∧
    ((resolveVotesWindow roomSpyVoted "v1" Lang.en 6000).state.phase =
        Phase.revealed ∧
     (resolveVotesWindow roomSpyVoted "v1" Lang.en 6000).state.winner =
        some Winner.civ) := by
  have h := voting_no_tie_outcome roomSpyVoted "v1" Lang.en 6000 rfl rfl
  have h1 := h.1 (by decide) (by decide)
  have h2 := h.2 5000 rfl (by decide) (by decide)
  refine ⟨⟨h1.1, ?_⟩, ⟨h2.1, ?_⟩⟩
  · rw [h1.2.2]; decide
  · rw [h2.2.2]; decide

/-- C1: evaluation at the failing input.  In `roomIneligibleTarget` the
late joiner `w` is not eligible, yet the everyone-confirmed tally counts
both confirmed votes for `w` and resolves the round with `w` as top
target (spy wins); the window-elapsed tally on identical data discards
those votes (`w` counts zero) and resolves against the remaining top
target `v1`, the spy (civilians win). -/
theorem everyone_tally_counts_ineligible_target :
    ("w" ∉ eligibleIds roomIneligibleTarget) ∧
    countOcc (countedTargetsEveryone (eligibleIds roomIneligibleTarget)
      roomIneligibleTarget.votes) "w" = 2 ∧
    (resolveVotesEveryone roomIneligibleTarget "v1" Lang.en 6000).state.phase =
      Phase.revealed ∧
    (resolveVotesEveryone roomIneligibleTarget "v1" Lang.en 6000).state.winner =
      some Winner.spy ∧
    countOcc (countedTargetsWindow (eligibleIds roomIneligibleTarget)
      roomIneligibleTarget.votes) "w" = 0 ∧
    (resolveVotesWindow roomIneligibleTarget "v1" Lang.en 6000).state.winner =
      some Winner.civ := by
  decide

/-- C7: evaluation at the failing input.  Five minutes after the last
activity the idle close empties the roster and resets the state to the
defaults, but the final `DEFAULT_STATE` write loop also puts `closedAt`
back to `null`, so the closed marker does not survive the reset. -/
theorem idle_close_resets_but_clears_closedAt :
    (idleClose roomIdleStale (1000 + INACTIVITY_MS)).players = [] ∧
    (idleClose roomIdleStale (1000 + INACTIVITY_MS)).state = DEFAULT_STATE ∧
    (idleClose roomIdleStale (1000 + INACTIVITY_MS)).state.closedAt = none ∧
    (idleClose roomIdleStale (1000 + INACTIVITY_MS)).votes = [] ∧
    (idleClose roomIdleStale (1000 + INACTIVITY_MS)).nameClaims = [] := by
  decide



theorem foldr_wordsStep_init (l : List Char) (W : List (List Char)) :
    l.foldr wordsStep ([], W) =
      ((l.foldr wordsStep ([], [])).1, (l.foldr wordsStep ([], [])).2 ++ W) := by
  induction l with
  | nil => rfl
  | cons c cs ih =>
      simp only [List.foldr_cons, ih]
      by_cases hc : isWs c
      · by_cases h1 : (cs.foldr wordsStep ([], [])).1 = [] <;>
          simp [wordsStep, hc, h1]
      · simp [wordsStep, hc]

theorem wordsWs_ws_cons (c : Char) (l : List Char) (h : isWs c = true) :
    wordsWs (c :: l) = wordsWs l := by
  simp only [wordsWs, List.foldr_cons, wordsStep, h, if_true]
  by_cases h1 : (l.foldr wordsStep ([], [])).1 = [] <;> simp [h1]

theorem wordsWs_append_ws (u : List Char) (c : Char) (v : List Char)
    (hc : isWs c = true) :
    wordsWs (u ++ c :: v) = wordsWs u ++ wordsWs (c :: v) := by
  have hfold : (c :: v).foldr wordsStep ([], []) = ([], wordsWs (c :: v)) := by
    simp only [List.foldr_cons, wordsStep, hc, if_true, wordsWs]
    by_cases h1 : (v.foldr wordsStep ([], [])).1 = [] <;> simp [h1]
  have hini := foldr_wordsStep_init u (wordsWs (c :: v))
  rw [wordsWs, List.foldr_append, hfold, hini]
  by_cases h1 : (u.foldr wordsStep ([], [])).1 = [] <;>
    simp [wordsWs, h1]

theorem foldr_wordsStep_all_not_ws (w : List Char) (h : ∀ c ∈ w, isWs c = false) :
    w.foldr wordsStep ([], []) = (w, []) := by
  induction w with
  | nil => rfl
  | cons c cs ih =>
      have hc : isWs c = false := h c (by simp)
      have ih' := ih (fun c hc => h c (by simp [hc]))
      simp [wordsStep, hc, ih']

theorem wordsWs_all_not_ws (w : List Char) (hne : w ≠ [])
    (h : ∀ c ∈ w, isWs c = false) : wordsWs w = [w] := by
  simp [wordsWs, foldr_wordsStep_all_not_ws w h, hne]

theorem foldr_wordsStep_spec (l : List Char) :
    (∀ c ∈ (l.foldr wordsStep ([], [])).1, isWs c = false) ∧
    (∀ w ∈ (l.foldr wordsStep ([], [])).2, w ≠ [] ∧ ∀ c ∈ w, isWs c = false) := by
  induction l with
  | nil => simp
  | cons c cs ih =>
      simp only [List.foldr_cons, wordsStep]
      by_cases hc : isWs c
      · by_cases h1 : (cs.foldr wordsStep ([], [])).1 = []
        · simpa [hc, h1] using ih.2
        · simp only [hc, if_true, h1, if_false]
          refine ⟨by simp, ?_⟩
          intro w hw
          simp only [List.mem_cons] at hw
          rcases hw with hw | hw
          · exact hw ▸ ⟨h1, ih.1⟩
          · exact ih.2 w hw
      · simp only [hc, Bool.false_eq_true, if_false]
        refine ⟨?_, ih.2⟩
        intro d hd
        simp only [List.mem_cons] at hd
        rcases hd with hd | hd
        · simpa [hd] using hc
        · exact ih.1 d hd

theorem wordsWs_spec (l : List Char) :
    ∀ w ∈ wordsWs l, w ≠ [] ∧ ∀ c ∈ w, isWs c = false := by
  intro w hw
  have h := foldr_wordsStep_spec l
  simp only [wordsWs] at hw
  by_cases h1 : (l.foldr wordsStep ([], [])).1 = []
  · simp only [h1, if_true] at hw
    exact h.2 w hw
  · simp only [h1, if_false] at hw
    rcases List.mem_cons.mp hw with hw | hw
    · exact hw ▸ ⟨h1, h.1⟩
    · exact h.2 w hw

theorem intercalate_cons (s w : List Char) (l : List (List Char)) :
    List.intercalate s (w :: l) =
      if l = [] then w else w ++ s ++ List.intercalate s l := by
  cases l <;> simp [List.intercalate, List.intersperse]

theorem intercalate_append_singleton (s y : List Char) :
    ∀ xs : List (List Char), xs ≠ [] →
      List.intercalate s (xs ++ [y]) = List.intercalate s xs ++ s ++ y
  | [], h => absurd rfl h
  | [w], _ => by simp [intercalate_cons]
  | w :: a :: b, _ => by
      have ih := intercalate_append_singleton s y (a :: b) (by simp)
      have h1 : List.intercalate s ((w :: a :: b) ++ [y]) =
          w ++ s ++ List.intercalate s ((a :: b) ++ [y]) := by
        rw [List.cons_append, intercalate_cons, if_neg (by simp)]
      have h2 : List.intercalate s (w :: a :: b) =
          w ++ s ++ List.intercalate s (a :: b) := by
        rw [intercalate_cons, if_neg (by simp)]
      rw [h1, ih, h2]
      simp [List.append_assoc]

theorem space_isWs : isWs ' ' = true := by decide

theorem digitChar_props : ∀ d, d < 10 →
    isWs (digitChar d) = false ∧ Char.toLower (digitChar d) = digitChar d ∧
    (digitChar d).isDigit = true := by decide

theorem digitChar_inj : ∀ d1, d1 < 10 → ∀ d2, d2 < 10 →
    digitChar d1 = digitChar d2 → d1 = d2 := by decide

theorem natToStrL_mem_props (n : Nat) :
    ∀ c ∈ natToStrL n, isWs c = false ∧ Char.toLower c = c ∧ c.isDigit = true := by
  intro c hc
  simp only [natToStrL] at hc
  by_cases h0 : n = 0
  · simp only [h0, if_true] at hc
    simp only [List.mem_singleton] at hc
    subst hc
    decide
  · simp only [h0, if_false, List.mem_map, List.mem_reverse] at hc
    obtain ⟨d, hd, rfl⟩ := hc
    exact digitChar_props d (Nat.digits_lt_base (by norm_num) hd)

theorem natToStrL_ne_nil (n : Nat) : natToStrL n ≠ [] := by
  simp only [natToStrL]
  by_cases h0 : n = 0
  · simp [h0]
  · simp [h0, Nat.digits_ne_nil_iff_ne_zero]

theorem map_digitChar_inj : ∀ l1 l2 : List Nat, (∀ d ∈ l1, d < 10) →
    (∀ d ∈ l2, d < 10) → l1.map digitChar = l2.map digitChar → l1 = l2
  | [], [], _, _, _ => rfl
  | [], _ :: _, _, _, h => by simp at h
  | _ :: _, [], _, _, h => by simp at h
  | d1 :: t1, d2 :: t2, h1, h2, h => by
      simp only [List.map_cons, List.cons.injEq] at h
      have hd := digitChar_inj d1 (h1 d1 (by simp)) d2 (h2 d2 (by simp)) h.1
      have ht := map_digitChar_inj t1 t2 (fun d hd => h1 d (by simp [hd]))
        (fun d hd => h2 d (by simp [hd])) h.2
      rw [hd, ht]

theorem natToStrL_inj (m n : Nat) (hm : 0 < m) (hn : 0 < n)
    (h : natToStrL m = natToStrL n) : m = n := by
  simp only [natToStrL, if_neg (by omega : ¬ m = 0), if_neg (by omega : ¬ n = 0)] at h
  have hdig := map_digitChar_inj (Nat.digits 10 m).reverse (Nat.digits 10 n).reverse
    (fun d hd => Nat.digits_lt_base (by norm_num) (List.mem_reverse.mp hd))
    (fun d hd => Nat.digits_lt_base (by norm_num) (List.mem_reverse.mp hd)) h
  have := List.reverse_injective hdig
  exact Nat.digits.injective 10 this

theorem lowerL_fix (l : List Char) (h : ∀ c ∈ l, Char.toLower c = c) :
    lowerL l = l := by
  induction l with
  | nil => rfl
  | cons c cs ih =>
      simp only [lowerL, List.map_cons]
      rw [h c (by simp)]
      have := ih (fun c hc => h c (by simp [hc]))
      simp only [lowerL] at this
      rw [this]

theorem normalizeNameL_append_suffix (base suf : List Char)
    (hNorm : normalizeNameL base = base) (hne : base ≠ [])
    (hsne : suf ≠ []) (hs : ∀ c ∈ suf, isWs c = false) :
    normalizeNameL (base ++ ' ' :: suf) = base ++ ' ' :: suf := by
  have hwne : wordsWs base ≠ [] := by
    intro h
    apply hne
    rw [← hNorm, normalizeNameL, h]
    rfl
  have h1 : wordsWs (base ++ ' ' :: suf) = wordsWs base ++ [suf] := by
    rw [wordsWs_append_ws base ' ' suf space_isWs, wordsWs_ws_cons _ _ space_isWs,
      wordsWs_all_not_ws suf hsne hs]
  have hN : List.intercalate [' '] (wordsWs base) = base := hNorm
  rw [normalizeNameL, h1, intercalate_append_singleton _ _ _ hwne, hN]
  simp

theorem numbered_suffix_not_ws (i : Nat) :
    ∀ c ∈ '(' :: (natToStrL i ++ [')']), isWs c = false := by
  intro c hc
  simp only [List.mem_cons, List.mem_append, List.mem_singleton] at hc
  rcases hc with rfl | hc | rfl | hf
  · decide
  · exact (natToStrL_mem_props i c hc).1
  · decide
  · exact absurd hf (by simp)

theorem numberedL_eq (base : List Char) (i : Nat) :
    numberedL base i = base ++ ' ' :: ('(' :: (natToStrL i ++ [')'])) := rfl

theorem normalizeNameL_numbered (base : List Char)
    (hNorm : normalizeNameL base = base) (hne : base ≠ []) (i : Nat) :
    normalizeNameL (numberedL base i) = numberedL base i := by
  rw [numberedL_eq]
  exact normalizeNameL_append_suffix base _ hNorm hne (by simp) (numbered_suffix_not_ws i)

theorem lowerL_numbered_suffix (i : Nat) :
    lowerL (' ' :: '(' :: (natToStrL i ++ [')'])) =
      ' ' :: '(' :: (natToStrL i ++ [')']) := by
  apply lowerL_fix
  intro c hc
  simp only [List.mem_cons, List.mem_append, List.mem_singleton] at hc
  rcases hc with rfl | rfl | hc | rfl | hf
  · decide
  · decide
  · exact (natToStrL_mem_props i c hc).2.1
  · decide
  · exact absurd hf (by simp)

theorem nameKeyL_attempt_one (base : List Char) (hNorm : normalizeNameL base = base) :
    nameKeyL (attemptName base 1) = lowerL base := by
  simp [attemptName, nameKeyL, hNorm]

theorem nameKeyL_attempt_ge2 (base : List Char) (hNorm : normalizeNameL base = base)
    (hne : base ≠ []) (i : Nat) (hi : 2 ≤ i) :
    nameKeyL (attemptName base i) =
      lowerL base ++ ' ' :: '(' :: (natToStrL i ++ [')']) := by
  have hne1 : i ≠ 1 := by omega
  rw [attemptName, if_neg hne1, nameKeyL, normalizeNameL_numbered base hNorm hne i,
    numberedL_eq]
  show lowerL (base ++ (' ' :: '(' :: (natToStrL i ++ [')']))) = _
  rw [show lowerL (base ++ (' ' :: '(' :: (natToStrL i ++ [')']))) =
      lowerL base ++ lowerL (' ' :: '(' :: (natToStrL i ++ [')'])) from
    List.map_append _ _ _, lowerL_numbered_suffix]

theorem attemptKey_inj (base : List Char) (hNorm : normalizeNameL base = base)
    (hne : base ≠ []) (i j : Nat) (hi : 1 ≤ i) (hj : 1 ≤ j)
    (h : attemptKey base i = attemptKey base j) : i = j := by
  have h' : nameKeyL (attemptName base i) = nameKeyL (attemptName base j) :=
    congrArg String.data h
  by_cases hi1 : i = 1
  · by_cases hj1 : j = 1
    · rw [hi1, hj1]
    · exfalso
      rw [hi1, nameKeyL_attempt_one base hNorm,
        nameKeyL_attempt_ge2 base hNorm hne j (by omega)] at h'
      have hlen := congrArg List.length h'
      simp only [lowerL, List.length_append, List.length_map, List.length_cons] at hlen
      have hpos : 0 < (natToStrL j).length := List.length_pos.mpr (natToStrL_ne_nil j)
      omega
  · by_cases hj1 : j = 1
    · exfalso
      rw [hj1, nameKeyL_attempt_one base hNorm,
        nameKeyL_attempt_ge2 base hNorm hne i (by omega)] at h'
      have hlen := congrArg List.length h'
      simp only [lowerL, List.length_append, List.length_map, List.length_cons] at hlen
      have hpos : 0 < (natToStrL i).length := List.length_pos.mpr (natToStrL_ne_nil i)
      omega
    · rw [nameKeyL_attempt_ge2 base hNorm hne i (by omega),
        nameKeyL_attempt_ge2 base hNorm hne j (by omega)] at h'
      have h2 := List.append_cancel_left h'
      simp only [List.cons.injEq, true_and] at h2
      have h3 := List.append_cancel_right h2
      exact natToStrL_inj i j (by omega) (by omega) h3

theorem takeWhile_append_all (p : Char → Bool) (l t : List Char)
    (h : ∀ c ∈ l, p c = true) : (l ++ t).takeWhile p = l ++ t.takeWhile p := by
  induction l with
  | nil => simp
  | cons c cs ih => simp_all [List.takeWhile_cons]

theorem dropWhile_append_all (p : Char → Bool) (l t : List Char)
    (h : ∀ c ∈ l, p c = true) : (l ++ t).dropWhile p = t.dropWhile p := by
  induction l with
  | nil => simp
  | cons c cs ih => simp_all [List.dropWhile_cons]

theorem normalized_reverse_head (base : List Char)
    (hNorm : normalizeNameL base = base) (hne : base ≠ []) :
    ∃ c t, base.reverse = c :: t ∧ isWs c = false := by
  have hN : List.intercalate [' '] (wordsWs base) = base := hNorm
  rcases List.eq_nil_or_concat (wordsWs base) with hnil | ⟨L, y, hLy⟩
  · exact absurd (by rw [← hN, hnil]; rfl) hne
  · rw [List.concat_eq_append] at hLy
    have hy : y ≠ [] ∧ ∀ c ∈ y, isWs c = false :=
      wordsWs_spec base y (by rw [hLy]; simp)
    rcases List.eq_nil_or_concat y with hynil | ⟨y0, c, hyc⟩
    · exact absurd hynil hy.1
    · rw [List.concat_eq_append] at hyc
      have hc : isWs c = false := hy.2 c (by rw [hyc]; simp)
      cases hL : L with
      | nil =>
          have hbase : base = y := by
            rw [← hN, hLy, hL]
            simp [List.intercalate]
          refine ⟨c, y0.reverse, ?_, hc⟩
          rw [hbase, hyc]
          simp
      | cons l0 ls =>
          have hbase : base = List.intercalate [' '] L ++ [' '] ++ y := by
            rw [← hN, hLy]
            exact intercalate_append_singleton _ _ L (by rw [hL]; simp)
          refine ⟨c, y0.reverse ++ (List.intercalate [' '] L ++ [' ']).reverse, ?_, hc⟩
          rw [hbase, hyc]
          simp [List.reverse_append]

theorem baseNameL_numbered (base : List Char) (hNorm : normalizeNameL base = base)
    (hne : base ≠ []) (i : Nat) :
    baseNameL (numberedL base i) = base := by
  obtain ⟨c0, t0, hrev0, hc0⟩ := normalized_reverse_head base hNorm hne
  have hnn : normalizeNameL (numberedL base i) = numberedL base i :=
    normalizeNameL_numbered base hNorm hne i
  have hrev : (numberedL base i).reverse =
      ')' :: ((natToStrL i).reverse ++ '(' :: ' ' :: base.reverse) := by
    rw [numberedL_eq]
    simp [List.reverse_append]
  have hdig : ∀ c ∈ (natToStrL i).reverse, Char.isDigit c = true := by
    intro c hc
    exact (natToStrL_mem_props i c (List.mem_reverse.mp hc)).2.2
  have htake : ((natToStrL i).reverse ++ '(' :: ' ' :: base.reverse).takeWhile Char.isDigit =
      (natToStrL i).reverse := by
    rw [takeWhile_append_all _ _ _ hdig]
    simp [List.takeWhile_cons]
  have hdsne : (natToStrL i).reverse ≠ [] := by
    simp [natToStrL_ne_nil]
  have hdrop : ((natToStrL i).reverse ++ '(' :: ' ' :: base.reverse).dropWhile Char.isDigit =
      '(' :: ' ' :: base.reverse := by
    rw [dropWhile_append_all _ _ _ hdig]
    simp [List.dropWhile_cons]
  have hsp : isWs ' ' = true := by decide
  have hws : (' ' :: base.reverse).takeWhile isWs = [' '] := by
    rw [hrev0]
    simp [List.takeWhile_cons, hsp, hc0]
  have hdropws : (' ' :: base.reverse).dropWhile isWs = base.reverse := by
    rw [hrev0]
    simp [List.dropWhile_cons, hsp, hc0]
  simp only [baseNameL, hnn, hrev, htake, hdrop, hdsne, hws, hdropws]
  simp [List.reverse_reverse]

theorem baseNameL_attempt (base : List Char) (hNorm : normalizeNameL base = base)
    (hne : base ≠ []) (hNoSuf : baseNameL base = base) (k : Nat) (_hk : 1 ≤ k) :
    baseNameL (attemptName base k) = base := by
  by_cases hk1 : k = 1
  · rw [hk1, attemptName, if_pos rfl]
    exact hNoSuf
  · rw [attemptName, if_neg hk1]
    exact baseNameL_numbered base hNorm hne k

theorem normalizeNameL_attempt (base : List Char) (hNorm : normalizeNameL base = base)
    (hne : base ≠ []) (k : Nat) :
    normalizeNameL (attemptName base k) = attemptName base k := by
  by_cases hk1 : k = 1
  · rw [hk1, attemptName, if_pos rfl, hNorm]
  · rw [attemptName, if_neg hk1]
    exact normalizeNameL_numbered base hNorm hne k

theorem aget_eq_none_of_not_mem {α : Type} (k : String) :
    ∀ m : List (String × α), k ∉ akeys m → aget k m = none
  | [], _ => rfl
  | (k', v) :: rest, h => by
      simp only [akeys, List.map_cons, List.mem_cons] at h
      push_neg at h
      have h1 : k' ≠ k := fun he => h.1 he.symm
      rw [aget, if_neg h1]
      exact aget_eq_none_of_not_mem k rest h.2

theorem aset_append_of_aget_none {α : Type} (k : String) (v : α) :
    ∀ m : List (String × α), aget k m = none → aset k v m = m ++ [(k, v)]
  | [], _ => rfl
  | (k', v') :: rest, h => by
      by_cases hk : k' = k
      · rw [aget, if_pos hk] at h
        cases h
      · rw [aget, if_neg hk] at h
        rw [aset, if_neg hk, aset_append_of_aget_none k v rest h]
        rfl

theorem claimsFrom_length (base : List Char) :
    ∀ (l : List (String × Nat)) (off : Nat), (claimsFrom base off l).length = l.length
  | [], _ => rfl
  | _ :: rest, off => by
      simp [claimsFrom, claimsFrom_length base rest (off + 1)]

theorem claimsFrom_append (base : List Char) :
    ∀ (l : List (String × Nat)) (off : Nat) (p : String × Nat),
      claimsFrom base off (l ++ [p]) =
        claimsFrom base off l ++ [(attemptKey base (off + l.length + 1), p.1)]
  | [], off, p => by simp [claimsFrom]
  | q :: rest, off, p => by
      have ih := claimsFrom_append base rest (off + 1) p
      have harith : off + 1 + rest.length + 1 = off + (rest.length + 1) + 1 := by omega
      show (attemptKey base (off + 1), q.1) :: claimsFrom base (off + 1) (rest ++ [p]) =
        ((attemptKey base (off + 1), q.1) :: claimsFrom base (off + 1) rest) ++
          [(attemptKey base (off + (rest.length + 1) + 1), p.1)]
      rw [ih, harith]
      simp

theorem playersFrom_append (base : List Char) :
    ∀ (l : List (String × Nat)) (off : Nat) (p : String × Nat),
      playersFrom base off (l ++ [p]) =
        playersFrom base off l ++ [(p.1, ⟨p.1, ⟨attemptName base (off + l.length + 1)⟩⟩)]
  | [], off, p => by simp [playersFrom]
  | q :: rest, off, p => by
      have ih := playersFrom_append base rest (off + 1) p
      have harith : off + 1 + rest.length + 1 = off + (rest.length + 1) + 1 := by omega
      show (q.1, (⟨q.1, ⟨attemptName base (off + 1)⟩⟩ : Player)) ::
          playersFrom base (off + 1) (rest ++ [p]) =
        ((q.1, (⟨q.1, ⟨attemptName base (off + 1)⟩⟩ : Player)) ::
          playersFrom base (off + 1) rest) ++
          [(p.1, ⟨p.1, ⟨attemptName base (off + (rest.length + 1) + 1)⟩⟩)]
      rw [ih, harith]
      simp

theorem akeys_playersFrom (base : List Char) :
    ∀ (l : List (String × Nat)) (off : Nat),
      akeys (playersFrom base off l) = l.map (·.1)
  | [], _ => rfl
  | q :: rest, off => by
      have ih := akeys_playersFrom base rest (off + 1)
      simp only [playersFrom, akeys, List.map_cons] at ih ⊢
      rw [ih]

theorem aget_claimsFrom_lt (base : List Char) (hNorm : normalizeNameL base = base)
    (hne : base ≠ []) :
    ∀ (l : List (String × Nat)) (off j : Nat) (hj : j < l.length),
      aget (attemptKey base (off + j + 1)) (claimsFrom base off l) =
        some (l.get ⟨j, hj⟩).1
  | q :: rest, off, 0, hj => by
      simp [claimsFrom, aget]
  | q :: rest, off, j + 1, hj => by
      have hne2 : attemptKey base (off + 1) ≠ attemptKey base (off + (j + 1) + 1) := by
        intro h
        have := attemptKey_inj base hNorm hne _ _ (by omega) (by omega) h
        omega
      rw [claimsFrom, aget, if_neg hne2]
      have hj' : j < rest.length := by
        simpa using Nat.lt_of_succ_lt_succ hj
      have hx := aget_claimsFrom_lt base hNorm hne rest (off + 1) j hj'
      rw [show off + 1 + j + 1 = off + (j + 1) + 1 from by omega] at hx
      rw [hx]
      rfl

theorem aget_claimsFrom_ge (base : List Char) (hNorm : normalizeNameL base = base)
    (hne : base ≠ []) :
    ∀ (l : List (String × Nat)) (off m : Nat), l.length ≤ m →
      aget (attemptKey base (off + m + 1)) (claimsFrom base off l) = none
  | [], _, _, _ => rfl
  | q :: rest, off, m, hm => by
      have hm1 : 1 ≤ m := by
        simp only [List.length_cons] at hm
        omega
      have hne2 : attemptKey base (off + 1) ≠ attemptKey base (off + m + 1) := by
        intro h
        have := attemptKey_inj base hNorm hne _ _ (by omega) (by omega) h
        omega
      rw [claimsFrom, aget, if_neg hne2]
      have hx := aget_claimsFrom_ge base hNorm hne rest (off + 1) (m - 1)
        (by simp only [List.length_cons] at hm; omega)
      rw [show off + 1 + (m - 1) + 1 = off + m + 1 from by omega] at hx
      exact hx

theorem findFreshName_walk (base : List Char) (hNorm : normalizeNameL base = base)
    (hne : base ≠ []) (l : List (String × Nat)) (id : String)
    (hid : ∀ p ∈ l, p.1 ≠ id) :
    ∀ k, k ≤ l.length →
      findFreshName (claimsFrom base 0 l) id base (k + 1) (l.length - k + 1) =
        some (attemptName base (l.length + 1)) := by
  intro k
  induction k with
  | zero =>
      intro _
      rw [findFreshName]
      have hget : aget (attemptKey base (l.length - 0 + 1)) (claimsFrom base 0 l) = none := by
        have := aget_claimsFrom_ge base hNorm hne l 0 l.length (le_refl _)
        rw [show (0 : Nat) + l.length + 1 = l.length - 0 + 1 from by omega] at this
        exact this
      rw [show ((⟨nameKeyL (attemptName base (l.length - 0 + 1))⟩ : String)) =
        attemptKey base (l.length - 0 + 1) from rfl]
      rw [hget]
      simp

  | succ k ih =>
      intro hk
      have hj : l.length - (k + 1) < l.length := by omega
      rw [findFreshName]
      have hget := aget_claimsFrom_lt base hNorm hne l 0 (l.length - (k + 1)) hj
      rw [show (0 : Nat) + (l.length - (k + 1)) + 1 = l.length - (k + 1) + 1 from by omega]
        at hget
      rw [show ((⟨nameKeyL (attemptName base (l.length - (k + 1) + 1))⟩ : String)) =
        attemptKey base (l.length - (k + 1) + 1) from rfl]
      simp only [hget]
      have howner : (l.get ⟨l.length - (k + 1), hj⟩).1 ≠ id :=
        hid _ (List.get_mem l _ _)
      rw [if_neg howner]
      have := ih (by omega)
      rw [show l.length - (k + 1) + 1 + 1 = l.length - k + 1 from by omega]
      exact this

theorem joinNow_fresh_step (base : List Char) (hNorm : normalizeNameL base = base)
    (hne : base ≠ []) (prev : List (String × Nat)) (id : String) (tm : Nat)
    (hid : ∀ p ∈ prev, p.1 ≠ id) :
    joinNow (roomAfterJoins base prev) id ⟨base⟩ tm =
      roomAfterJoins base (prev ++ [(id, tm)]) := by
  have hbase : (if normalizeNameL (String.data ⟨base⟩) = [] then "Player".data
      else normalizeNameL (String.data ⟨base⟩)) = base := by
    show (if normalizeNameL base = [] then "Player".data else normalizeNameL base) = base
    rw [hNorm, if_neg hne]
  have hidmem : id ∉ akeys (playersFrom base 0 prev) := by
    rw [akeys_playersFrom]
    simp only [List.mem_map]
    rintro ⟨p, hp, hpe⟩
    exact hid p hp hpe
  have hgetp : aget id (playersFrom base 0 prev) = none :=
    aget_eq_none_of_not_mem id _ hidmem
  have hgetj : aget id prev = none := by
    apply aget_eq_none_of_not_mem
    simp only [akeys, List.mem_map]
    rintro ⟨p, hp, hpe⟩
    exact hid p hp hpe
  have hlen : (claimsFrom base 0 prev).length = prev.length := claimsFrom_length base prev 0
  have hwalk := findFreshName_walk base hNorm hne prev id hid prev.length (le_refl _)
  rw [Nat.sub_self, Nat.zero_add] at hwalk
  have hkeynone : aget (attemptKey base (prev.length + 1)) (claimsFrom base 0 prev) = none := by
    have := aget_claimsFrom_ge base hNorm hne prev 0 prev.length (le_refl _)
    rwa [show (0 : Nat) + prev.length + 1 = prev.length + 1 from by omega] at this
  have hsetc : aset (attemptKey base (prev.length + 1)) id (claimsFrom base 0 prev) =
      claimsFrom base 0 (prev ++ [(id, tm)]) := by
    rw [aset_append_of_aget_none _ _ _ hkeynone, claimsFrom_append]
    rw [show (0 : Nat) + prev.length + 1 = prev.length + 1 from by omega]
  have hsetp : aset id (⟨id, ⟨attemptName base (prev.length + 1)⟩⟩ : Player)
      (playersFrom base 0 prev) = playersFrom base 0 (prev ++ [(id, tm)]) := by
    rw [aset_append_of_aget_none _ _ _ hgetp, playersFrom_append]
    rw [show (0 : Nat) + prev.length + 1 = prev.length + 1 from by omega]
  have hsetj : aset id tm prev = prev ++ [(id, tm)] :=
    aset_append_of_aget_none _ _ _ hgetj
  show joinNow (Room.mk (playersFrom base 0 prev) DEFAULT_STATE [] prev [] [] []
      (claimsFrom base 0 prev)) id ⟨base⟩ tm =
    Room.mk (playersFrom base 0 (prev ++ [(id, tm)])) DEFAULT_STATE []
      (prev ++ [(id, tm)]) [] [] [] (claimsFrom base 0 (prev ++ [(id, tm)]))
  have hkeydef : (⟨nameKeyL (attemptName base (prev.length + 1))⟩ : String) =
      attemptKey base (prev.length + 1) := rfl
  rw [joinNow]
  simp only [hbase, hgetp, hlen, hwalk, hkeydef, hkeynone, hsetc, hsetp, hsetj]

theorem joinAll_fresh (base : List Char) (hNorm : normalizeNameL base = base)
    (hne : base ≠ []) :
    ∀ (joins prev : List (String × Nat)),
      ((prev ++ joins).map (·.1)).Nodup →
      joinAll ⟨base⟩ (roomAfterJoins base prev) joins = roomAfterJoins base (prev ++ joins)
  | [], prev, _ => by simp [joinAll]
  | j :: rest, prev, hnd => by
      have hid : ∀ p ∈ prev, p.1 ≠ j.1 := by
        have hnd' := hnd
        rw [List.map_append] at hnd'
        have hdis := List.disjoint_of_nodup_append hnd'
        intro p hp hpe
        exact hdis (List.mem_map_of_mem _ hp) (by simp [hpe])
      have hstep := joinNow_fresh_step base hNorm hne prev j.1 j.2 hid
      have hnd2 : (((prev ++ [j]) ++ rest).map (·.1)).Nodup := by
        rw [List.append_assoc]
        simpa using hnd
      have ih := joinAll_fresh base hNorm hne rest (prev ++ [j]) hnd2
      show joinAll ⟨base⟩ (roomAfterJoins base prev) (j :: rest) = _
      rw [joinAll, List.foldl_cons]
      rw [show (j.1, j.2) = j from rfl] at hstep
      rw [show (joinNow (roomAfterJoins base prev) j.1 ⟨base⟩ j.2) =
        roomAfterJoins base (prev ++ [j]) from hstep]
      rw [show List.foldl (fun r j => joinNow r j.1 (⟨base⟩ : String) j.2)
        (roomAfterJoins base (prev ++ [j])) rest =
        joinAll ⟨base⟩ (roomAfterJoins base (prev ++ [j])) rest from rfl]
      rw [ih, List.append_assoc]
      rfl

theorem insertBy_map {α β : Type} (le : α → α → Bool) (le2 : β → β → Bool)
    (f : α → β) (hf : ∀ x y, le x y = le2 (f x) (f y)) (x : α) :
    ∀ l : List α, (insertBy le x l).map f = insertBy le2 (f x) (l.map f)
  | [] => rfl
  | y :: ys => by
      simp only [insertBy, List.map_cons]
      rw [← hf x y]
      by_cases h : le x y
      · simp [h]
      · simp only [h, Bool.false_eq_true, if_false, List.map_cons]
        rw [insertBy_map le le2 f hf x ys]

theorem sortBy_map {α β : Type} (le : α → α → Bool) (le2 : β → β → Bool)
    (f : α → β) (hf : ∀ x y, le x y = le2 (f x) (f y)) :
    ∀ l : List α, (sortBy le l).map f = sortBy le2 (l.map f)
  | [] => rfl
  | x :: xs => by
      simp only [sortBy, List.map_cons]
      rw [insertBy_map le le2 f hf, sortBy_map le le2 f hf xs]

theorem insertBy_perm {α : Type} (le : α → α → Bool) (x : α) :
    ∀ l : List α, (insertBy le x l).Perm (x :: l)
  | [] => List.Perm.refl _
  | y :: ys => by
      rw [insertBy]
      by_cases h : le x y
      · rw [if_pos h]
      · rw [if_neg h]
        exact ((insertBy_perm le x ys).cons y).trans (List.Perm.swap x y ys)

theorem sortBy_perm {α : Type} (le : α → α → Bool) :
    ∀ l : List α, (sortBy le l).Perm l
  | [] => List.Perm.refl _
  | x :: xs => by
      rw [sortBy]
      exact (insertBy_perm le x (sortBy le xs)).trans ((sortBy_perm le xs).cons x)

theorem playersWith_ids (f : String → List Char) :
    ∀ l : List (String × Nat),
      ((playersWith f l).map (·.2)).map (fun p => p.id) = l.map (·.1)
  | [] => rfl
  | p :: rest => by simp [playersWith, playersWith_ids f rest]

theorem playersWith_length (f : String → List Char) :
    ∀ l : List (String × Nat), (playersWith f l).length = l.length
  | [] => rfl
  | p :: rest => by simp [playersWith, playersWith_length f rest]

theorem mem_playersWith (f : String → List Char) :
    ∀ (l : List (String × Nat)) (q : Player), q ∈ (playersWith f l).map (·.2) →
      q = ⟨q.id, ⟨f q.id⟩⟩ ∧ q.id ∈ l.map (·.1)
  | [], q, hq => by simp [playersWith] at hq
  | p :: rest, q, hq => by
      simp only [playersWith, List.map_cons, List.mem_cons] at hq
      rcases hq with hq | hq
      · subst hq
        simp
      · have := mem_playersWith f rest q hq
        exact ⟨this.1, by simp [this.2]⟩

theorem aget_playersWith (f : String → List Char) :
    ∀ (l : List (String × Nat)) (x : String), x ∈ l.map (·.1) →
      aget x (playersWith f l) = some ⟨x, ⟨f x⟩⟩
  | [], x, hx => by simp at hx
  | p :: rest, x, hx => by
      by_cases hpx : p.1 = x
      · rw [playersWith, aget, if_pos hpx, hpx]
      · rw [playersWith, aget, if_neg hpx]
        apply aget_playersWith f rest x
        simp only [List.map_cons, List.mem_cons] at hx
        rcases hx with hx | hx
        · exact absurd hx.symm hpx
        · exact hx

theorem playersWith_congr (f g : String → List Char) :
    ∀ l : List (String × Nat), (∀ id ∈ l.map (·.1), f id = g id) →
      playersWith f l = playersWith g l
  | [], _ => rfl
  | p :: rest, h => by
      rw [playersWith, playersWith, h p.1 (by simp),
        playersWith_congr f g rest (fun id hid => h id (by simp [hid]))]

theorem aset_playersWith (f : String → List Char) (x : String) (nm : List Char) :
    ∀ l : List (String × Nat), (l.map (·.1)).Nodup → x ∈ l.map (·.1) →
      aset x (⟨x, ⟨nm⟩⟩ : Player) (playersWith f l) =
        playersWith (fun y => if y = x then nm else f y) l
  | [], _, hx => by simp at hx
  | p :: rest, hnd, hx => by
      simp only [List.map_cons, List.nodup_cons] at hnd
      by_cases hpx : p.1 = x
      · have hrest : playersWith f rest =
            playersWith (fun y => if y = x then nm else f y) rest := by
          apply playersWith_congr
          intro id hid
          have hne2 : ¬ id = x := by
            intro he
            apply hnd.1
            rw [hpx, ← he]
            exact hid
          rw [if_neg hne2]
        rw [playersWith, aset, if_pos hpx, hrest]
        simp [playersWith, hpx]
      · rw [playersWith, aset, if_neg hpx]
        have hx' : x ∈ rest.map (·.1) := by
          simp only [List.map_cons, List.mem_cons] at hx
          rcases hx with hx | hx
          · exact absurd hx.symm hpx
          · exact hx
        rw [aset_playersWith f x nm rest hnd.2 hx']
        have hpne : ¬ p.1 = x := hpx
        simp [playersWith, if_neg hpne]

theorem findIdxA_eq_findIdxS (x : String) :
    ∀ l : List Player, findIdxA (fun p => p.id == x) l = findIdxS x (l.map (fun p => p.id))
  | [] => rfl
  | p :: rest => by
      simp only [findIdxA, findIdxS, List.map_cons, beq_iff_eq]
      rw [findIdxA_eq_findIdxS x rest]

theorem findIdxS_some_of_mem (x : String) :
    ∀ l : List String, x ∈ l → ∃ i, findIdxS x l = some i ∧ i < l.length
  | [], hx => by simp at hx
  | y :: rest, hx => by
      by_cases hyx : y = x
      · exact ⟨0, by simp [findIdxS, hyx], by simp⟩
      · have hx' : x ∈ rest := by
          rcases List.mem_cons.mp hx with hx | hx
          · exact absurd hx.symm hyx
          · exact hx
        obtain ⟨i, hi, hlt⟩ := findIdxS_some_of_mem x rest hx'
        exact ⟨i + 1, by simp [findIdxS, hyx, hi], by simp; omega⟩

theorem findIdxS_get (x : String) :
    ∀ (l : List String) (i : Nat), findIdxS x l = some i →
      ∃ h : i < l.length, l.get ⟨i, h⟩ = x
  | [], i, h => by simp [findIdxS] at h
  | y :: rest, i, h => by
      by_cases hyx : y = x
      · simp only [findIdxS, if_pos hyx] at h
        cases h
        exact ⟨by simp, hyx⟩
      · simp only [findIdxS, if_neg hyx, Option.map_eq_some'] at h
        obtain ⟨j, hj, rfl⟩ := h
        obtain ⟨hlt, hget⟩ := findIdxS_get x rest j hj
        exact ⟨by simp; omega, hget⟩

theorem findIdxS_get_self :
    ∀ l : List String, l.Nodup → ∀ (i : Nat) (h : i < l.length),
      findIdxS (l.get ⟨i, h⟩) l = some i
  | [], _, i, h => by simp at h
  | y :: rest, _, 0, h => by simp [findIdxS]
  | y :: rest, hnd, i + 1, h => by
      simp only [List.nodup_cons] at hnd
      have hlt : i < rest.length := by simpa using Nat.lt_of_succ_lt_succ h
      have hget : (y :: rest).get ⟨i + 1, h⟩ = rest.get ⟨i, hlt⟩ := rfl
      rw [hget]
      have hyne : ¬ y = rest.get ⟨i, hlt⟩ := by
        intro he
        exact hnd.1 (he ▸ List.get_mem rest _ _)
      rw [findIdxS, if_neg hyne, findIdxS_get_self rest hnd.2 i hlt]
      rfl

theorem akeys_aset {α : Type} (k : String) (v : α) :
    ∀ m : List (String × α),
      akeys (aset k v m) = if k ∈ akeys m then akeys m else akeys m ++ [k]
  | [] => by simp [aset, akeys]
  | (k', v') :: rest => by
      by_cases hk : k' = k
      · subst hk
        simp [aset, akeys]
      · have hrec := akeys_aset k v rest
        simp only [akeys, List.map_cons] at hrec ⊢
        rw [aset, if_neg hk, List.map_cons, hrec]
        by_cases hm : k ∈ List.map (fun x => x.1) rest
        · rw [if_pos hm, if_pos (by simp [hm])]
        · rw [if_neg hm, if_neg ?hc]
          · rfl
          case hc =>
            simp only [List.mem_cons]
            push_neg
            exact ⟨fun h => hk h.symm, hm⟩

theorem nodup_akeys_aset {α : Type} (k : String) (v : α) (m : List (String × α))
    (h : (akeys m).Nodup) : (akeys (aset k v m)).Nodup := by
  rw [akeys_aset]
  by_cases hm : k ∈ akeys m
  · simpa [hm] using h
  · rw [if_neg hm]
    refine List.Nodup.append h (List.nodup_singleton k) ?_
    intro a ha hak
    simp only [List.mem_singleton] at hak
    exact hm (hak ▸ ha)

theorem adel_sublist {α : Type} (k : String) :
    ∀ m : List (String × α), (adel k m).Sublist m
  | [] => List.Sublist.refl _
  | (k', v') :: rest => by
      rw [adel]
      by_cases hk : k' = k
      · rw [if_pos hk]
        exact (List.Sublist.refl rest).cons _
      · rw [if_neg hk]
        exact (adel_sublist k rest).cons₂ _

theorem nodup_akeys_adel {α : Type} (k : String) (m : List (String × α))
    (h : (akeys m).Nodup) : (akeys (adel k m)).Nodup :=
  List.Nodup.sublist ((adel_sublist k m).map _) h

theorem dedupeStep_claims_nodup (room : Room) (x : String)
    (h : (akeys room.nameClaims).Nodup) :
    (akeys (dedupeStep room x).nameClaims).Nodup := by
  simp only [dedupeStep]
  split
  · exact h
  · split
    · exact h
    · split
      · exact h
      · split
        · exact h
        · show (akeys (aset _ _ _)).Nodup
          apply nodup_akeys_aset
          split
          · exact nodup_akeys_adel _ _ h
          · exact h

theorem desiredName_eq_attempt (base : List Char) (i : Nat) :
    desiredName base i = attemptName base (i + 1) := by
  by_cases hi : i = 0
  · simp [desiredName, attemptName, hi]
  · rw [desiredName, if_neg hi, attemptName, if_neg (by omega)]

theorem dedupeStep_family (base : List Char) (hNorm : normalizeNameL base = base)
    (hne : base ≠ []) (hNoSuf : baseNameL base = base)
    (joins : List (String × Nat)) (hnd : (joins.map (·.1)).Nodup)
    (hlen2 : 2 ≤ joins.length)
    (f : String → List Char)
    (hf : ∀ id ∈ joins.map (·.1), ∃ k, 1 ≤ k ∧ f id = attemptName base k)
    (x : String) (hx : x ∈ joins.map (·.1))
    (room : Room) (hp : room.players = playersWith f joins) (hj : room.joinAt = joins) :
    ∃ i, findIdxS x (sortBy (idOrderLE joins) (joins.map (·.1))) = some i ∧
      i < joins.length ∧
      (dedupeStep room x).players =
        playersWith (fun y => if y = x then desiredName base i else f y) joins ∧
      (dedupeStep room x).joinAt = joins := by
  have hperm := sortBy_perm (idOrderLE joins) (joins.map (·.1))
  have hxs : x ∈ sortBy (idOrderLE joins) (joins.map (·.1)) := hperm.mem_iff.mpr hx
  obtain ⟨i, hfind, hilt⟩ := findIdxS_some_of_mem x _ hxs
  have hslen : (sortBy (idOrderLE joins) (joins.map (·.1))).length = joins.length := by
    rw [hperm.length_eq, List.length_map]
  have hilt2 : i < joins.length := by rw [hslen] at hilt; exact hilt
  have hget : aget x room.players = some ⟨x, ⟨f x⟩⟩ := by
    rw [hp]
    exact aget_playersWith f joins x hx
  obtain ⟨k, hk1, hfk⟩ := hf x hx
  have hbase2 : baseNameL (f x) = base := by
    rw [hfk]
    exact baseNameL_attempt base hNorm hne hNoSuf k hk1
  have hpl : playersList room = (playersWith f joins).map (·.2) := by
    rw [playersList, hp]
  have hfilter : (playersList room).filter
      (fun p => lowerL (baseNameL p.name.data) == lowerL base) =
      playersList room := by
    apply List.filter_eq_self.mpr
    intro p hpmem
    rw [hpl] at hpmem
    have hpm := mem_playersWith f joins p hpmem
    obtain ⟨k2, hk2, hfk2⟩ := hf p.id hpm.2
    have hpb : baseNameL p.name.data = base := by
      rw [hpm.1]
      show baseNameL (f p.id) = base
      rw [hfk2]
      exact baseNameL_attempt base hNorm hne hNoSuf k2 hk2
    rw [hpb]
    exact beq_self_eq_true _
  have hglen : ¬ (playersList room).length ≤ 1 := by
    rw [hpl, List.length_map, playersWith_length]
    omega
  have hmapid : (sortBy (joinOrderLE joins) (playersList room)).map (fun p => p.id) =
      sortBy (idOrderLE joins) (joins.map (·.1)) := by
    rw [sortBy_map (joinOrderLE joins) (idOrderLE joins) (fun p => p.id)
      (fun a b => rfl), hpl, playersWith_ids]
  have hfindA : findIdxA (fun p => p.id == x)
      (sortBy (joinOrderLE joins) (playersList room)) = some i := by
    rw [findIdxA_eq_findIdxS, hmapid, hfind]
  have hD : dedupeStep room x =
      (if (⟨f x⟩ : String) = (⟨desiredName base i⟩ : String) then room
       else { room with
         nameClaims := aset (⟨nameKeyL (desiredName base i)⟩ : String) x
           (if aget (nameKeyS (⟨f x⟩ : String)) room.nameClaims = some x
            then adel (nameKeyS (⟨f x⟩ : String)) room.nameClaims else room.nameClaims)
         players := aset x ⟨x, ⟨desiredName base i⟩⟩ room.players }) := by
    simp only [dedupeStep, hget, hbase2, hfilter, if_neg hglen, hj, hfindA]
  refine ⟨i, hfind, hilt2, ?_, ?_⟩
  · by_cases hsame : (⟨f x⟩ : String) = (⟨desiredName base i⟩ : String)
    · rw [hD, if_pos hsame, hp]
      have hfeq : f x = desiredName base i := congrArg String.data hsame
      apply playersWith_congr
      intro id hid
      by_cases hidx : id = x
      · rw [if_pos hidx, hidx, hfeq]
      · rw [if_neg hidx]
    · rw [hD, if_neg hsame]
      show aset x ⟨x, ⟨desiredName base i⟩⟩ room.players = _
      rw [hp]
      exact aset_playersWith f x (desiredName base i) joins hnd hx
  · by_cases hsame : (⟨f x⟩ : String) = (⟨desiredName base i⟩ : String)
    · rw [hD, if_pos hsame]
      exact hj
    · rw [hD, if_neg hsame]
      exact hj

theorem dedupeAll_family (base : List Char) (hNorm : normalizeNameL base = base)
    (hne : base ≠ []) (hNoSuf : baseNameL base = base)
    (joins : List (String × Nat)) (hnd : (joins.map (·.1)).Nodup)
    (hlen2 : 2 ≤ joins.length) :
    ∀ (todo : List String), (∀ x ∈ todo, x ∈ joins.map (·.1)) → todo.Nodup →
      ∀ (f : String → List Char),
        (∀ id ∈ joins.map (·.1), ∃ k, 1 ≤ k ∧ f id = attemptName base k) →
        ∀ room : Room, room.players = playersWith f joins → room.joinAt = joins →
      ∃ g : String → List Char,
        (dedupeAll room todo).players = playersWith g joins ∧
        (dedupeAll room todo).joinAt = joins ∧
        (∀ x ∈ todo, ∃ i, findIdxS x (sortBy (idOrderLE joins) (joins.map (·.1))) =
          some i ∧ g x = desiredName base i) ∧
        (∀ x, x ∉ todo → g x = f x)
  | [], _, _, f, hf, room, hp, hj => ⟨f, hp, hj, by simp, fun x _ => rfl⟩
  | x :: rest, hsub, htodo, f, hf, room, hp, hj => by
      obtain ⟨i, hfind, hilt, hp1, hj1⟩ := dedupeStep_family base hNorm hne hNoSuf joins
        hnd hlen2 f hf x (hsub x (by simp)) room hp hj
      have hf1 : ∀ id ∈ joins.map (·.1), ∃ k, 1 ≤ k ∧
          (fun y => if y = x then desiredName base i else f y) id =
            attemptName base k := by
        intro id hid
        by_cases hidx : id = x
        · refine ⟨i + 1, by omega, ?_⟩
          simp only [hidx, if_pos rfl]
          exact desiredName_eq_attempt base i
        · obtain ⟨k, hk1, hfk⟩ := hf id hid
          refine ⟨k, hk1, ?_⟩
          simp only [if_neg hidx]
          exact hfk
      simp only [List.nodup_cons] at htodo
      obtain ⟨g, hgp, hgj, hgdes, hgpre⟩ := dedupeAll_family base hNorm hne hNoSuf
        joins hnd hlen2 rest (fun y hy => hsub y (by simp [hy])) htodo.2
        (fun y => if y = x then desiredName base i else f y) hf1
        (dedupeStep room x) hp1 hj1
      refine ⟨g, hgp, hgj, ?_, ?_⟩
      · intro y hy
        rcases List.mem_cons.mp hy with rfl | hy2
        · refine ⟨i, hfind, ?_⟩
          rw [hgpre y htodo.1]
          simp
        · exact hgdes y hy2
      · intro y hyn
        have hynr : y ∉ rest := fun hr => hyn (by simp [hr])
        have hynx : ¬ y = x := fun he => hyn (by simp [he])
        rw [hgpre y hynr]
        simp [hynx]

theorem dedupeAll_claims_nodup (todo : List String) :
    ∀ room : Room, (akeys room.nameClaims).Nodup →
      (akeys (dedupeAll room todo).nameClaims).Nodup := by
  induction todo with
  | nil => exact fun room h => h
  | cons x rest ih =>
      intro room h
      exact ih (dedupeStep room x) (dedupeStep_claims_nodup room x h)

theorem mem_claimsFrom_keys (base : List Char) :
    ∀ (l : List (String × Nat)) (off : Nat) (x : String),
      x ∈ akeys (claimsFrom base off l) →
      ∃ j, j < l.length ∧ x = attemptKey base (off + j + 1)
  | [], _, x, hx => by simp [claimsFrom, akeys] at hx
  | p :: rest, off, x, hx => by
      simp only [claimsFrom, akeys, List.map_cons, List.mem_cons] at hx
      rcases hx with hx | hx
      · exact ⟨0, by simp, hx⟩
      · obtain ⟨j, hj, he⟩ := mem_claimsFrom_keys base rest (off + 1) x (by
          simpa [akeys] using hx)
        refine ⟨j + 1, by simp only [List.length_cons]; omega, ?_⟩
        rw [he]
        congr 1
        omega

theorem claimsFrom_keys_nodup (base : List Char) (hNorm : normalizeNameL base = base)
    (hne : base ≠ []) :
    ∀ (l : List (String × Nat)) (off : Nat), (akeys (claimsFrom base off l)).Nodup
  | [], _ => by simp [claimsFrom, akeys]
  | p :: rest, off => by
      simp only [claimsFrom, akeys, List.map_cons]
      refine List.nodup_cons.mpr ⟨?_, ?_⟩
      · intro hmem
        obtain ⟨j, hj, he⟩ := mem_claimsFrom_keys base rest (off + 1) _ (by
          simpa [akeys] using hmem)
        have := attemptKey_inj base hNorm hne _ _ (by omega) (by omega) he
        omega
      · have := claimsFrom_keys_nodup base hNorm hne rest (off + 1)
        simpa [akeys] using this

theorem attemptName_inj (base : List Char) (hNorm : normalizeNameL base = base)
    (hne : base ≠ []) (i j : Nat) (hi : 1 ≤ i) (hj : 1 ≤ j)
    (h : attemptName base i = attemptName base j) : i = j :=
  attemptKey_inj base hNorm hne i j hi hj (by rw [attemptKey, attemptKey, h])

theorem mem_playersFrom_names (base : List Char) :
    ∀ (l : List (String × Nat)) (off : Nat) (q : Player),
      q ∈ (playersFrom base off l).map (·.2) →
      ∃ j, j < l.length ∧ q.name = (⟨attemptName base (off + j + 1)⟩ : String)
  | [], _, q, hq => by simp [playersFrom] at hq
  | p :: rest, off, q, hq => by
      simp only [playersFrom, List.map_cons, List.mem_cons] at hq
      rcases hq with hq | hq
      · refine ⟨0, by simp, ?_⟩
        rw [hq]
      · obtain ⟨j, hj, he⟩ := mem_playersFrom_names base rest (off + 1) q hq
        refine ⟨j + 1, by simp only [List.length_cons]; omega, ?_⟩
        rw [he]
        congr 2
        omega

theorem playersFrom_names_nodup (base : List Char) (hNorm : normalizeNameL base = base)
    (hne : base ≠ []) :
    ∀ (l : List (String × Nat)) (off : Nat),
      (((playersFrom base off l).map (·.2)).map
        (fun p => normalizeName p.name)).Nodup
  | [], _ => by simp [playersFrom]
  | p :: rest, off => by
      simp only [playersFrom, List.map_cons]
      refine List.nodup_cons.mpr ⟨?_, playersFrom_names_nodup base hNorm hne rest (off + 1)⟩
      intro hmem
      simp only [List.mem_map] at hmem
      obtain ⟨q, hq, he⟩ := hmem
      obtain ⟨j, hj, hqn⟩ := mem_playersFrom_names base rest (off + 1) q
        (List.mem_map.mpr hq)
      rw [hqn] at he
      have hn1 : normalizeName (⟨attemptName base (off + 1 + j + 1)⟩ : String) =
          (⟨attemptName base (off + 1 + j + 1)⟩ : String) := by
        show (⟨normalizeNameL (attemptName base (off + 1 + j + 1))⟩ : String) = _
        rw [normalizeNameL_attempt base hNorm hne]
      have hn2 : normalizeName (⟨attemptName base (off + 1)⟩ : String) =
          (⟨attemptName base (off + 1)⟩ : String) := by
        show (⟨normalizeNameL (attemptName base (off + 1))⟩ : String) = _
        rw [normalizeNameL_attempt base hNorm hne]
      rw [hn1, hn2] at he
      have hdata : attemptName base (off + 1 + j + 1) = attemptName base (off + 1) :=
        congrArg String.data he
      have := attemptName_inj base hNorm hne _ _ (by omega) (by omega) hdata
      omega

theorem dedupeStep_single (room : Room) (x : String) (h : room.players.length ≤ 1) :
    dedupeStep room x = room := by
  rw [dedupeStep]
  cases hg : aget x room.players with
  | none => rfl
  | some self =>
      have hfl : ∀ q : List Player → List Player, True := fun _ => trivial
      have hlen : (List.filter
          (fun p => lowerL (baseNameL p.name.data) == lowerL (baseNameL self.name.data))
          (playersList room)).length ≤ 1 :=
        le_trans (List.length_filter_le _ _) (by simpa [playersList] using h)
      simp only [if_pos hlen]

theorem playersFrom_eq_playersWith (base : List Char) :
    ∀ (l : List (String × Nat)) (off : Nat) (f : String → List Char),
      (∀ (j : Nat) (hj : j < l.length),
        f (l.get ⟨j, hj⟩).1 = attemptName base (off + j + 1)) →
      playersFrom base off l = playersWith f l
  | [], _, _, _ => rfl
  | p :: rest, off, f, hfa => by
      rw [playersFrom, playersWith]
      have h0 : f p.1 = attemptName base (off + 1) := by
        have := hfa 0 (by simp)
        rw [show off + 0 + 1 = off + 1 from by omega] at this
        exact this
      have htail : playersFrom base (off + 1) rest = playersWith f rest := by
        apply playersFrom_eq_playersWith base rest (off + 1) f
        intro j hj
        have := hfa (j + 1) (by simp only [List.length_cons]; omega)
        rw [show off + (j + 1) + 1 = off + 1 + j + 1 from by omega] at this
        exact this
      rw [htail, h0]

theorem sortBy_length {α : Type} (le : α → α → Bool) (l : List α) :
    (sortBy le l).length = l.length :=
  (sortBy_perm le l).length_eq

theorem joinNameOf_family (base : List Char) (ids : List String) (hnd : ids.Nodup) :
    ∀ id ∈ ids, ∃ k, 1 ≤ k ∧ joinNameOf base ids id = attemptName base k := by
  intro id hid
  obtain ⟨⟨j, hj⟩, hget⟩ := List.mem_iff_get.mp hid
  have hf : findIdxS id ids = some j := by
    rw [← hget]
    exact findIdxS_get_self ids hnd j hj
  exact ⟨j + 1, by omega, by rw [joinNameOf, hf]⟩

theorem sortedRoster_names (base : List Char) (joins : List (String × Nat))
    (hNorm : normalizeNameL base = base) (hne : base ≠ [])
    (hNoSuf : baseNameL base = base) (hnd : (joins.map (·.1)).Nodup) :
    (sortedRoster base joins).length = joins.length ∧
    ∀ (i : Nat) (h : i < (sortedRoster base joins).length),
      ((sortedRoster base joins).get ⟨i, h⟩).name = (⟨desiredName base i⟩ : String) := by
  have hmain : joinAll ⟨base⟩ emptyRoom joins = roomAfterJoins base joins := by
    have h := joinAll_fresh base hNorm hne joins [] (by simpa using hnd)
    simpa using h
  rcases joins with _ | ⟨j1, _ | ⟨j2, rest⟩⟩
  · refine ⟨rfl, ?_⟩
    intro i h
    have hz : (sortedRoster base []).length = 0 := rfl
    omega
  · have hD : roomAfterDedupe base [j1] = roomAfterJoins base [j1] := by
      show dedupeAll (joinAll ⟨base⟩ emptyRoom [j1]) [j1.1] = _
      rw [hmain]
      show dedupeStep (roomAfterJoins base [j1]) j1.1 = _
      apply dedupeStep_single
      show (playersFrom base 0 [j1]).length ≤ 1
      rw [show (playersFrom base 0 [j1]).length = 1 from rfl]
    have hSR : sortedRoster base [j1] =
        [⟨j1.1, (⟨attemptName base 1⟩ : String)⟩] := by
      rw [sortedRoster, hD]
      rfl
    refine ⟨by rw [hSR]; rfl, ?_⟩
    intro i h
    have h1 : (sortedRoster base [j1]).length = 1 := by rw [hSR]; rfl
    match i, h with
    | 0, h =>
        have hget : (sortedRoster base [j1]).get ⟨0, h⟩ =
            ⟨j1.1, (⟨attemptName base 1⟩ : String)⟩ := by
          have := List.get_of_eq hSR ⟨0, h⟩
          simpa using this
        rw [hget]
        show (⟨attemptName base 1⟩ : String) = (⟨desiredName base 0⟩ : String)
        rw [attemptName, if_pos rfl, desiredName, if_pos rfl]
    | i + 1, h => omega
  · set js := j1 :: j2 :: rest with hjs
    have hlen2 : 2 ≤ js.length := by rw [hjs]; simp
    have hfam := joinNameOf_family base (js.map (·.1)) hnd
    have hplayers0 : (joinAll ⟨base⟩ emptyRoom js).players =
        playersWith (joinNameOf base (js.map (·.1))) js := by
      rw [hmain]
      show playersFrom base 0 js = _
      apply playersFrom_eq_playersWith
      intro j hj
      have hjlen : j < (js.map (·.1)).length := by
        rw [List.length_map]
        exact hj
      have hgetid : (js.map (·.1)).get ⟨j, hjlen⟩ = (js.get ⟨j, hj⟩).1 := by
        simp [List.get_eq_getElem, List.getElem_map]
      have hfj : findIdxS (js.get ⟨j, hj⟩).1 (js.map (·.1)) = some j := by
        rw [← hgetid]
        exact findIdxS_get_self (js.map (·.1)) hnd j hjlen
      rw [joinNameOf, hfj, Nat.zero_add]
    have hjoinAt : (joinAll ⟨base⟩ emptyRoom js).joinAt = js := by
      rw [hmain]
      rfl
    obtain ⟨g, hgp, hgj, hgdes, hgpre⟩ := dedupeAll_family base hNorm hne hNoSuf js hnd
      hlen2 (js.map (·.1)) (fun x hx => hx) hnd (joinNameOf base (js.map (·.1))) hfam
      (joinAll ⟨base⟩ emptyRoom js) hplayers0 hjoinAt
    have hSR : sortedRoster base js =
        sortBy (joinOrderLE js) ((playersWith g js).map (·.2)) := by
      rw [sortedRoster]
      rw [show (roomAfterDedupe base js).joinAt = js from hgj]
      rw [show playersList (roomAfterDedupe base js) = (playersWith g js).map (·.2) from by
        rw [playersList]
        exact congrArg (List.map _) hgp]
    have hmapid : (sortedRoster base js).map (fun p => p.id) =
        sortBy (idOrderLE js) (js.map (·.1)) := by
      rw [hSR, sortBy_map (joinOrderLE js) (idOrderLE js) (fun p => p.id) (fun a b => rfl),
        playersWith_ids]
    have hσlen : (sortBy (idOrderLE js) (js.map (·.1))).length = js.length := by
      rw [sortBy_length, List.length_map]
    have hslen : (sortedRoster base js).length = js.length := by
      have h2 := congrArg List.length hmapid
      rw [List.length_map] at h2
      rw [h2, hσlen]
    have hσnd : (sortBy (idOrderLE js) (js.map (·.1))).Nodup :=
      ((sortBy_perm (idOrderLE js) (js.map (·.1))).nodup_iff).mpr hnd
    refine ⟨hslen, ?_⟩
    intro i h
    have hσi : i < (sortBy (idOrderLE js) (js.map (·.1))).length := by
      rw [hσlen]
      rw [hslen] at h
      exact h
    have heid : ((sortedRoster base js).get ⟨i, h⟩).id =
        (sortBy (idOrderLE js) (js.map (·.1))).get ⟨i, hσi⟩ := by
      have hmap : ((sortedRoster base js).map (fun p => p.id)).get
          ⟨i, by rw [List.length_map]; exact h⟩ =
          (sortBy (idOrderLE js) (js.map (·.1))).get ⟨i, hσi⟩ := by
        have := List.get_of_eq hmapid ⟨i, by rw [List.length_map]; exact h⟩
        simpa using this
      rw [List.get_map] at hmap
      exact hmap
    obtain ⟨x, hxmem, hxeq⟩ : ∃ x, x ∈ sortedRoster base js ∧
        (sortedRoster base js).get ⟨i, h⟩ = x :=
      ⟨_, List.get_mem _ _ _, rfl⟩
    have hroster : x ∈ (playersWith g js).map (·.2) := by
      rw [hSR] at hxmem
      exact (sortBy_perm (joinOrderLE js) ((playersWith g js).map (·.2))).mem_iff.mp hxmem
    have he2 := mem_playersWith g js _ hroster
    rw [hxeq] at heid
    have hfself := findIdxS_get_self (sortBy (idOrderLE js) (js.map (·.1))) hσnd i hσi
    rw [← heid] at hfself
    obtain ⟨i2, hfind2, hge2⟩ := hgdes _ he2.2
    rw [hfself] at hfind2
    have hi2 : i2 = i := by
      have := Option.some.inj hfind2
      omega
    have hname : x.name = (⟨g x.id⟩ : String) := by
      have := congrArg Player.name he2.1
      simpa using this
    rw [hxeq, hname, hge2, hi2]

/-- C8: for any sequence of joins all requesting the same normalized,
suffix-free, non-empty base name with pairwise-distinct client ids, the
active players after the joins carry pairwise-distinct normalized display
names, the name-claims map holds at most one owner per normalized key at
every step of the join sequence and at every step of the re-derivation
pass, and once every member has re-derived its display name the roster
ordered by join timestamp then id names its `i`-th member the bare base
for `i = 0` and the base followed by a parenthesized `i + 1` otherwise,
with no gaps in the numbering. -/
theorem name_claim_resolution (base : List Char) (joins : List (String × Nat))
    (hNorm : normalizeNameL base = base) (hne : base ≠ [])
    (hNoSuf : baseNameL base = base) (hnd : (joins.map (·.1)).Nodup) :
    (((joinAll ⟨base⟩ emptyRoom joins).players.map (·.2)).map
      (fun p => normalizeName p.name)).Nodup ∧
    (∀ k, (akeys ((joinAll ⟨base⟩ emptyRoom (joins.take k)).nameClaims)).Nodup) ∧
    (∀ k, (akeys ((dedupeAll (joinAll ⟨base⟩ emptyRoom joins)
        ((joins.map (·.1)).take k)).nameClaims)).Nodup) ∧
    (sortedRoster base joins).length = joins.length ∧
    ∀ (i : Nat) (h : i < (sortedRoster base joins).length),
      ((sortedRoster base joins).get ⟨i, h⟩).name = (⟨desiredName base i⟩ : String) := by
  have hmainAll : ∀ pre : List (String × Nat), (pre.map (·.1)).Nodup →
      joinAll ⟨base⟩ emptyRoom pre = roomAfterJoins base pre := by
    intro pre hpre
    have h := joinAll_fresh base hNorm hne pre [] (by simpa using hpre)
    simpa using h
  have hndk : ∀ k, ((joins.take k).map (·.1)).Nodup := by
    intro k
    rw [List.map_take]
    exact List.Nodup.sublist (List.take_sublist _ _) hnd
  have ha : (((joinAll ⟨base⟩ emptyRoom joins).players.map (·.2)).map
      (fun p => normalizeName p.name)).Nodup := by
    rw [hmainAll joins hnd]
    exact playersFrom_names_nodup base hNorm hne joins 0
  have hb1 : ∀ k, (akeys ((joinAll ⟨base⟩ emptyRoom (joins.take k)).nameClaims)).Nodup := by
    intro k
    rw [hmainAll (joins.take k) (hndk k)]
    exact claimsFrom_keys_nodup base hNorm hne (joins.take k) 0
  have hfullnd : (akeys ((joinAll ⟨base⟩ emptyRoom joins).nameClaims)).Nodup := by
    have h := hb1 joins.length
    rw [List.take_length] at h
    exact h
  obtain ⟨hc1, hc2⟩ := sortedRoster_names base joins hNorm hne hNoSuf hnd
  exact ⟨ha, hb1,
    fun k => dedupeAll_claims_nodup ((joins.map (·.1)).take k) _ hfullnd,
    hc1, hc2⟩

/-- Witness for C8 at a concrete three-client join sequence all requesting
the name Bob, two of them at the same timestamp: the earliest holder keeps
the bare base and the others receive the consecutive parenthesized
numbers. -/
theorem name_claim_resolution_witness :
    (((joinAll ⟨"Bob".data⟩ emptyRoom
        [("idb", 10), ("ida", 10), ("idc", 5)]).players.map (·.2)).map
      (fun p => normalizeName p.name)).Nodup ∧
    (sortedRoster "Bob".data [("idb", 10), ("ida", 10), ("idc", 5)]).length = 3 ∧
    (sortedRoster "Bob".data [("idb", 10), ("ida", 10), ("idc", 5)]).map (·.name) =
      ["Bob", "Bob (2)", "Bob (3)"] := by
  obtain ⟨ha, _, _, hlen, hname⟩ := name_claim_resolution "Bob".data
    [("idb", 10), ("ida", 10), ("idc", 5)] (by decide) (by decide) (by decide) (by decide)
  refine ⟨ha, by simpa using hlen, ?_⟩
  apply List.ext_get
  · simpa using hlen
  · intro n h1 h2
    rw [List.get_map]
    rw [hname n (by simpa using h1)]
    have hn3 : n < 3 := by simpa using h2
    have hd2 : (⟨desiredName "Bob".data 1⟩ : String) = "Bob (2)" := by
      have hd : Nat.digits 10 2 = [2] := by norm_num
      simp [desiredName, numberedL, natToStrL, hd]
      rfl
    have hd3 : (⟨desiredName "Bob".data 2⟩ : String) = "Bob (3)" := by
      have hd : Nat.digits 10 3 = [3] := by norm_num
      simp [desiredName, numberedL, natToStrL, hd]
      rfl
    match n, h2, hn3 with
    | 0, _, _ => rfl
    | 1, _, _ => exact hd2
    | 2, _, _ => exact hd3
    | m + 3, _, hm => exact absurd hm (by omega)

end Spyfall
